import Mathlib

/-!
# Verification of the adaptive interview advisor (train_and_predict.py)

This file is a shallow embedding of the decision logic of the repository's
single source file.  Strings are modelled as `List Char` so that the
positional substring scanning of the market-report extractor and the
Python string primitives (`strip`, `lower`, slicing, `find`) can be
reproduced exactly.  The external LLM oracle and console input are
modelled as environments: each oracle call consumes one outcome
(`none` = the call raised, `some t` = it returned text `t`), and each
asked question consumes one raw console answer.
-/

/-- Strings are modelled as lists of characters. -/
abbrev Str := List Char

/-- Python `str.isspace` membership for the ASCII whitespace characters
removed by `str.strip()`. -/
def pyIsSpace (c : Char) : Bool :=
  c = ' ' || c = '\t' || c = '\n' || c = '\r' || c = '\x0b' || c = '\x0c'

/-- Python `str.strip()`: remove whitespace from both ends. -/
def pyStrip (s : Str) : Str :=
  ((s.dropWhile pyIsSpace).reverse.dropWhile pyIsSpace).reverse

/-- Python `str.lower()` (ASCII behaviour, which is all the program needs
for its yes/no comparisons). -/
def pyLower (s : Str) : Str := s.map Char.toLower

/-- The out-of-band question returned by the selector when its pool is
empty (line 50 of the source: the `except` fallback when
`remaining_questions` is falsy). -/
def fallbackQuestion : Str := "Do you have any other interests?".toList

/-- `get_next_question_from_gemini` (lines 27-50).  The prompt building is
pure string formatting with no effect on the result, so only the oracle
outcome matters: `some t` models `model.generate_content` returning text
`t`, `none` models the call raising.  Note that on the success path the
Python expression `remaining_questions[0]` is evaluated inside the `try`
block, so its `IndexError` on an empty pool is caught by the same
`except` handler as an oracle failure; both paths then return
`remaining_questions[0] if remaining_questions else "Do you have any
other interests?"`. -/
def get_next_question_from_gemini (history : List (Str × Str))
    (remaining_questions : List Str) (resp : Option Str) : Str :=
  match resp with
  | some t =>
    let selected_question := pyStrip t
    if selected_question ∈ remaining_questions then selected_question
    else
      match remaining_questions with
      | q :: _ => q
      | [] => fallbackQuestion
  | none =>
    match remaining_questions with
    | q :: _ => q
    | [] => fallbackQuestion

/-- The selector always returns a member of a non-empty pool. -/
theorem get_next_question_mem (history : List (Str × Str))
    (q : Str) (rest : List Str) (resp : Option Str) :
    get_next_question_from_gemini history (q :: rest) resp ∈ q :: rest := by
  unfold get_next_question_from_gemini
  match resp with
  | some t =>
    by_cases h : pyStrip t ∈ q :: rest
    · simp [h]
    · simp [h]
  | none => simp

/-- C5: on a non-empty pool the selector returns the oracle's trimmed
response exactly when it is a (case-sensitive) member of the pool, and
otherwise — including on oracle failure — the first pool entry. -/
theorem selector_contract (history : List (Str × Str)) (q : Str)
    (rest : List Str) (t : Str) :
    (pyStrip t ∈ q :: rest →
      get_next_question_from_gemini history (q :: rest) (some t) = pyStrip t) ∧
    (pyStrip t ∉ q :: rest →
      get_next_question_from_gemini history (q :: rest) (some t) = q) ∧
    get_next_question_from_gemini history (q :: rest) none = q := by
  refine ⟨fun h => ?_, fun h => ?_, ?_⟩
  · simp [get_next_question_from_gemini, h]
  · simp [get_next_question_from_gemini, h]
  · simp [get_next_question_from_gemini]

/-- Witness for `selector_contract` at a concrete input: the oracle
answers with the second pool entry (surrounded by whitespace), and the
selector returns it trimmed; a non-member answer falls back to the first
entry; a failed call falls back to the first entry. -/
theorem selector_contract_witness :
    (pyStrip "  Do you prefer teams?  ".toList ∈
        ["Do you like coding?".toList, "Do you prefer teams?".toList] ∧
      get_next_question_from_gemini []
        ["Do you like coding?".toList, "Do you prefer teams?".toList]
        (some "  Do you prefer teams?  ".toList) =
        pyStrip "  Do you prefer teams?  ".toList) ∧
    (pyStrip "Something else".toList ∉
        ["Do you like coding?".toList, "Do you prefer teams?".toList] ∧
      get_next_question_from_gemini []
        ["Do you like coding?".toList, "Do you prefer teams?".toList]
        (some "Something else".toList) = "Do you like coding?".toList) ∧
    get_next_question_from_gemini []
      ["Do you like coding?".toList, "Do you prefer teams?".toList] none =
      "Do you like coding?".toList := by
  refine ⟨⟨by decide, ?_⟩, ⟨by decide, ?_⟩, ?_⟩
  · exact (selector_contract [] "Do you like coding?".toList
      ["Do you prefer teams?".toList] "  Do you prefer teams?  ".toList).1
      (by decide)
  · exact (selector_contract [] "Do you like coding?".toList
      ["Do you prefer teams?".toList] "Something else".toList).2.1 (by decide)
  · exact (selector_contract [] "Do you like coding?".toList
      ["Do you prefer teams?".toList] "Anything".toList).2.2

/-- C10: the selector never raises to its caller.  On an empty pool the
indexing failure of the success path is caught by the same handler as an
oracle failure, and both return the fixed out-of-band question
"Do you have any other interests?", a string never contained in the
(empty) pool. -/
theorem selector_empty_pool_total (history : List (Str × Str))
    (resp : Option Str) :
    get_next_question_from_gemini history [] resp = fallbackQuestion ∧
    fallbackQuestion ∉ ([] : List Str) := by
  constructor
  · unfold get_next_question_from_gemini
    match resp with
    | some t => simp [show pyStrip t ∉ ([] : List Str) by simp]
    | none => rfl
  · simp

/-! ## Market Report Extractor (`fetch_market_trend`, lines 75-123) -/

/-- Bounded scan used to embed Python `str.find(pat, start)`: try
positions `i, i+1, ...` for `steps` attempts. -/
def findFromGo (text pat : Str) : Nat → Nat → Option Nat
  | _, 0 => none
  | i, steps + 1 =>
    if pat.isPrefixOf (text.drop i) then some i else findFromGo text pat (i + 1) steps

/-- Python `text.find(pat, start)` for a non-empty pattern, returning
`none` instead of `-1`: the least position `p ≥ start` at which `pat`
occurs in `text`. -/
def findFrom (text pat : Str) (start : Nat) : Option Nat :=
  findFromGo text pat start (text.length + 1 - start)

/-- The four labels scanned by `fetch_market_trend` (line 95), in order. -/
def marketKeys : List Str :=
  ["Market Demand".toList, "Top Skills".toList,
   "Expected Salary Range".toList, "Aligns with Market Trends".toList]

/-- The "unavailable" sentinel. -/
def naStr : Str := "N/A".toList

/-- The blank-line separator searched for by the extractor. -/
def nnSep : Str := ['\n', '\n']

/-- Python slice `text[a:b]` for `0 ≤ a, b`. -/
def sliceList (s : Str) (a b : Nat) : Str := (s.drop a).take (b - a)

/-- Inner loop of the extractor (lines 102-106): the running minimum of
the positions, at or after `fromPos`, of the labels after the current
one; `acc` starts at `len(text)`. -/
def minNextKeyPos (text : Str) (laterKeys : List Str) (fromPos : Nat) (acc : Nat) : Nat :=
  match laterKeys with
  | [] => acc
  | k :: rest =>
    let acc' :=
      match findFrom text (k ++ [':']) fromPos with
      | some p => min p acc
      | none => acc
    minNextKeyPos text rest fromPos acc'

/-- Lines 101-107: the end of the matched label's value span — the
earliest of the next blank line at or after the match (or end of text if
none) and the position of any later label found after `start + 1`.
(Line 101's `"\n\n" in text[start:]` guard is the same test as `find`
from `start` succeeding.) -/
def endPosCalc (text : Str) (laterKeys : List Str) (start : Nat) : Nat :=
  let end0 :=
    match findFrom text nnSep start with
    | some e => e
    | none => text.length
  let next_key_pos := minNextKeyPos text laterKeys (start + 1) text.length
  if next_key_pos ≠ text.length then min end0 next_key_pos else end0

/-- The field-extraction loop of `fetch_market_trend` (lines 97-112):
for each label in order, scan for `"<label>:"` from the cursor; if
present, the value runs from just after the label-colon to the end of
the span, and the cursor advances to the end of the span; if absent the
field is the sentinel and the cursor stays. -/
def extractFields (text : Str) : List Str → Nat → List (Str × Str)
  | [], _ => []
  | key :: rest, current_pos =>
    match findFrom text (key ++ [':']) current_pos with
    | none => (key, naStr) :: extractFields text rest current_pos
    | some start =>
      let endPos := endPosCalc text rest start
      let value := pyStrip (sliceList text (start + key.length + 1) endPos)
      (key, value) :: extractFields text rest endPos

/-- The structured market report: four semantic fields plus the raw
oracle output (the dictionary built by `fetch_market_trend`). -/
structure MarketData where
  marketDemand : Str
  topSkills : Str
  expectedSalaryRange : Str
  alignsWithMarketTrends : Str
  rawOutput : Str
  deriving DecidableEq

/-- Read one label's extracted value out of the loop's output. -/
def lookupField (fields : List (Str × Str)) (key : Str) : Str :=
  match fields.find? (fun p => p.1 == key) with
  | some p => p.2
  | none => naStr

/-- The success path of `fetch_market_trend` (lines 90-114): run the
extraction loop over the response text and package the result, with
`Raw Output` holding the untouched input. -/
def fetch_market_trend_extract (text : Str) : MarketData :=
  let fields := extractFields text marketKeys 0
  { marketDemand := lookupField fields "Market Demand".toList
    topSkills := lookupField fields "Top Skills".toList
    expectedSalaryRange := lookupField fields "Expected Salary Range".toList
    alignsWithMarketTrends := lookupField fields "Aligns with Market Trends".toList
    rawOutput := text }

/-- `fetch_market_trend` (lines 75-123).  The oracle call producing the
raw text either succeeds with the response text (`Except.ok`) or raises;
in the latter case the handler (lines 116-123) fills every semantic
field with the sentinel and stores the exception description `str(e)`
(modelled by the error string) as `Raw Output`. -/
def fetch_market_trend : Except Str Str → MarketData
  | Except.ok text => fetch_market_trend_extract text
  | Except.error e => ⟨naStr, naStr, naStr, naStr, e⟩

/-- C9: on oracle success the raw-output field always holds the complete
untouched response text, whatever the four extractions do; on oracle
failure all four semantic fields are the sentinel and the raw-output
field holds the failure description. -/
theorem market_report_raw_field (text e : Str) :
    (fetch_market_trend (Except.ok text)).rawOutput = text ∧
    fetch_market_trend (Except.error e) = ⟨naStr, naStr, naStr, naStr, e⟩ :=
  ⟨rfl, rfl⟩

/-! ## Interview Engine (`ask_questions`, lines 126-204) -/

/-- One row of the questions CSV after `load_questions` (lines 5-24):
`QuestionID`, `Question`, and the two branch targets with `NaN` already
replaced by the empty string. -/
structure QuestionRecord where
  qid : Str
  text : Str
  nextIfYes : Str
  nextIfNo : Str
  deriving DecidableEq

/-- `pandas.Series.unique` on the `Question` column (line 129): distinct
values in order of first occurrence. -/
def uniqueAux : List Str → List Str → List Str
  | [], _ => []
  | x :: xs, seen =>
    if x ∈ seen then uniqueAux xs seen else x :: uniqueAux xs (x :: seen)

/-- `list(questions['Question'].unique())`. -/
def uniqueList (l : List Str) : List Str := uniqueAux l []

/-- `questions[questions["QuestionID"] == cid].iloc[0]` as an option: the
first row whose id matches; comparing the column against `None` matches
nothing. -/
def findById (qs : List QuestionRecord) : Option Str → Option QuestionRecord
  | none => none
  | some cid => qs.find? (fun r => r.qid == cid)

/-- Python truthiness of the `current_id` variable (`None` and the empty
string are falsy). -/
def truthyO : Option Str → Bool
  | none => false
  | some s => !s.isEmpty

/-- `set.add` on the asked-identifier set, represented as a
duplicate-free list. -/
def addAsked (s : List Str) (x : Str) : List Str :=
  if x ∈ s then s else s ++ [x]

/-- The environment of a run: console answers (indexed by the number of
questions asked so far, one per turn) and oracle outcomes (indexed by a
running call counter; `none` models `generate_content` raising). -/
structure Env where
  answers : Nat → Str
  oracle : Nat → Option Str

/-- The mutable state of `ask_questions`, plus bookkeeping that records
what the run did: `selector_pools` logs the pool passed to each selector
call, and `mode_trace` logs, for each asked question, whether it was
selected by CSV branching (`true`) or oracle-driven selection (`false`).
`next_yes`/`next_no` model the loop variables of the same name (read at
line 179, set at lines 149-150). -/
structure EngineState where
  history : List (Str × Str)
  asked_ids : List Str
  remaining_questions : List Str
  current_id : Option Str
  asked_count : Nat
  use_csv_branching : Bool
  next_yes : Str
  next_no : Str
  oracle_calls : Nat
  selector_pools : List (List Str)
  mode_trace : List Bool

/-- Result of one loop iteration: continue with a new state, or leave the
loop via `break` (the "No more questions available" warning). -/
inductive StepResult where
  | next (st : EngineState)
  | halt (st : EngineState)

/-- Lines 152-163 and 185-190/196-201 (the two copies are identical):
when the pool is non-empty, ask the selector (consuming one oracle
outcome), adopt the matching row's id as `current_id` when the chosen
text matches a known record (line 156-160), and add a truthy id to the
asked set; when the pool is empty, signal `break`. -/
def oracleSelect (qs : List QuestionRecord) (env : Env) (st : EngineState) :
    Option (Str × EngineState) :=
  match st.remaining_questions with
  | [] => none
  | q0 :: rest =>
    let question :=
      get_next_question_from_gemini st.history (q0 :: rest) (env.oracle st.oracle_calls)
    let st1 := { st with oracle_calls := st.oracle_calls + 1,
                         selector_pools := st.selector_pools ++ [q0 :: rest] }
    let cid := (qs.find? (fun r => r.text == question)).map (fun r => r.qid)
    let st2 := { st1 with current_id := cid }
    let st3 :=
      match cid with
      | some c =>
        if c.isEmpty then st2
        else { st2 with asked_ids := addAsked st2.asked_ids c }
      | none => st2
    some (question, st3)

/-- Lines 166-169: the console answer is stripped and lowercased, and
anything other than "yes"/"no" is coerced to "no" with a warning. -/
def normalizeAnswer (raw : Str) : Str :=
  let a := pyLower (pyStrip raw)
  if a = "yes".toList ∨ a = "no".toList then a else "no".toList

/-- Lines 171-175: append the (question, answer) pair to the history,
remove the question's first occurrence from the pool if present, bump
the counter.  `branchingSel` records how this turn's question was
chosen (bookkeeping only). -/
def recordTurn (st : EngineState) (question answer : Str) (branchingSel : Bool) :
    EngineState :=
  { st with history := st.history ++ [(question, answer)],
            remaining_questions := st.remaining_questions.erase question,
            asked_count := st.asked_count + 1,
            mode_trace := st.mode_trace ++ [branchingSel] }

/-- Lines 177-204: determine the next turn's question source.  In
branching mode with a truthy id, accept the branch target only if
non-empty, known, and not already asked (line 181); otherwise abandon
branching and immediately perform an oracle-driven selection for the
next turn.  Outside branching mode do the oracle-driven selection
directly. -/
def postAdvance (qs : List QuestionRecord) (env : Env) (st1 : EngineState)
    (answer : Str) : StepResult :=
  if st1.use_csv_branching = true ∧ truthyO st1.current_id = true then
    let next_id := if answer = "yes".toList then st1.next_yes else st1.next_no
    if ¬ next_id.isEmpty ∧ next_id ∈ qs.map (fun r => r.qid) ∧ next_id ∉ st1.asked_ids then
      StepResult.next { st1 with current_id := some next_id }
    else
      let st2 := { st1 with use_csv_branching := false }
      match oracleSelect qs env st2 with
      | none => StepResult.halt st2
      | some (_, st3) => StepResult.next st3
  else
    match oracleSelect qs env st1 with
    | none => StepResult.halt st1
    | some (_, st2) => StepResult.next st2

/-- Lines 166-204: one asked turn (ask, record, advance). -/
def askAndAdvance (qs : List QuestionRecord) (env : Env) (st : EngineState)
    (question : Str) (branchingSel : Bool) : StepResult :=
  let answer := normalizeAnswer (env.answers st.asked_count)
  postAdvance qs env (recordTurn st question answer branchingSel) answer

/-- Lines 137-138: after five asked questions, permanently force oracle
mode. -/
def forceAfterFive (st : EngineState) : EngineState :=
  if 5 ≤ st.asked_count then { st with use_csv_branching := false } else st

/-- Lines 140-163 plus the asked turn: in branching mode look up the
current id, asking its question on success (marking it asked) and
permanently switching to oracle selection on failure (lines 140-151); in
oracle mode select from the pool or `break` when it is empty
(lines 152-163). -/
def selectAndAsk (qs : List QuestionRecord) (env : Env) (stA : EngineState) :
    StepResult :=
  if stA.use_csv_branching then
    match findById qs stA.current_id with
    | some row =>
      let stB := { stA with
        asked_ids :=
          match stA.current_id with
          | some c => addAsked stA.asked_ids c
          | none => stA.asked_ids,
        next_yes := row.nextIfYes,
        next_no := row.nextIfNo }
      askAndAdvance qs env stB row.text true
    | none =>
      let question :=
        get_next_question_from_gemini stA.history stA.remaining_questions
          (env.oracle stA.oracle_calls)
      let stB := { stA with
        use_csv_branching := false,
        oracle_calls := stA.oracle_calls + 1,
        selector_pools := stA.selector_pools ++ [stA.remaining_questions],
        current_id := none }
      askAndAdvance qs env stB question false
  else
    match oracleSelect qs env stA with
    | none => StepResult.halt stA
    | some (question, stB) => askAndAdvance qs env stB question false

/-- One iteration of the `while` body (lines 135-204). -/
def interviewStep (qs : List QuestionRecord) (env : Env) (st0 : EngineState) :
    StepResult :=
  selectAndAsk qs env (forceAfterFive st0)

/-- The `while asked_count < min_questions` loop (lines 135-204).  The
fuel argument is the number of remaining allowed iterations; `run` below
supplies `min_questions`, which is exact because every non-`break`
iteration asks exactly one question.  The boolean result records whether
the loop ended through `break` (printing "No more questions
available"). -/
def interviewLoop (qs : List QuestionRecord) (env : Env) (min_questions : Nat) :
    Nat → EngineState → EngineState × Bool
  | 0, st => (st, false)
  | fuel + 1, st =>
    if st.asked_count < min_questions then
      match interviewStep qs env st with
      | StepResult.next st' => interviewLoop qs env min_questions fuel st'
      | StepResult.halt st' => (st', true)
    else (st, false)

/-- The engine's initial state (lines 127-133). -/
def initialState (qs : List QuestionRecord) (start_id : Str) : EngineState :=
  { history := [], asked_ids := [],
    remaining_questions := uniqueList (qs.map (fun r => r.text)),
    current_id := some start_id, asked_count := 0, use_csv_branching := true,
    next_yes := [], next_no := [], oracle_calls := 0,
    selector_pools := [], mode_trace := [] }

/-- The interview portion of `ask_questions` (lines 126-204): run the
loop from the initial state.  (The subsequent suggestion and market
calls, lines 206-220, are modelled separately by `fetch_market_trend`.)
The second component is `true` exactly when the loop exited via `break`
with the "No more questions available" warning. -/
def ask_questions (qs : List QuestionRecord) (env : Env) (start_id : Str)
    (min_questions : Nat) : EngineState × Bool :=
  interviewLoop qs env min_questions min_questions (initialState qs start_id)

/-! ## Basic step lemmas -/

/-- `oracleSelect` signals `break` exactly when the pool is empty. -/
theorem oracleSelect_eq_none_iff (qs : List QuestionRecord) (env : Env)
    (st : EngineState) :
    oracleSelect qs env st = none ↔ st.remaining_questions = [] := by
  unfold oracleSelect
  cases h : st.remaining_questions <;> simp

/-- Components of `oracleSelect` untouched or pushed in a simple way. -/
theorem oracleSelect_some_spec (qs : List QuestionRecord) (env : Env)
    (st : EngineState) (q : Str) (st' : EngineState)
    (h : oracleSelect qs env st = some (q, st')) :
    st'.remaining_questions = st.remaining_questions ∧
    st'.history = st.history ∧
    st'.asked_count = st.asked_count ∧
    st'.use_csv_branching = st.use_csv_branching ∧
    st'.mode_trace = st.mode_trace ∧
    st'.next_yes = st.next_yes ∧ st'.next_no = st.next_no ∧
    st'.selector_pools = st.selector_pools ++ [st.remaining_questions] ∧
    st.remaining_questions ≠ [] ∧ q ∈ st.remaining_questions := by
  unfold oracleSelect at h
  cases hr : st.remaining_questions with
  | nil => rw [hr] at h; exact absurd h (by simp)
  | cons q0 rest =>
    rw [hr] at h
    simp only [Option.some.injEq, Prod.mk.injEq] at h
    obtain ⟨hq, hst⟩ := h
    subst hq
    have hmem := get_next_question_mem st.history q0 rest (env.oracle st.oracle_calls)
    refine ?_
    cases hfind : (qs.find? (fun r => r.text ==
        get_next_question_from_gemini st.history (q0 :: rest)
          (env.oracle st.oracle_calls))) with
    | none => rw [hfind] at hst; subst hst; simp_all
    | some r =>
      rw [hfind] at hst
      by_cases hi : r.qid.isEmpty <;> simp [hi] at hst <;> subst hst <;> simp_all

/-- The advance phase never touches the turn bookkeeping: both on
continue and on `break`, history, pool, counter, and trace are those of
the recorded turn, and on `break` the pool is empty.  A state that
leaves the advance phase in branching mode entered it in branching
mode. -/
theorem postAdvance_spec (qs : List QuestionRecord) (env : Env)
    (st1 : EngineState) (answer : Str) :
    (∀ st', postAdvance qs env st1 answer = StepResult.next st' →
      st'.asked_count = st1.asked_count ∧ st'.history = st1.history ∧
      st'.remaining_questions = st1.remaining_questions ∧
      st'.mode_trace = st1.mode_trace ∧
      (st'.use_csv_branching = true → st1.use_csv_branching = true)) ∧
    (∀ st', postAdvance qs env st1 answer = StepResult.halt st' →
      st'.asked_count = st1.asked_count ∧ st'.history = st1.history ∧
      st'.remaining_questions = [] ∧ st'.mode_trace = st1.mode_trace) := by
  unfold postAdvance
  dsimp only
  split
  · split <;>
    · constructor
      · intro st' h
        split at h
        · simp only [StepResult.next.injEq] at h
          subst h
          exact ⟨rfl, rfl, rfl, rfl, fun hb => hb⟩
        · split at h
          · exact absurd h (by simp)
          · rename_i hsel
            simp only [StepResult.next.injEq] at h
            subst h
            have hs := oracleSelect_some_spec qs env _ _ _ hsel
            refine ⟨hs.2.2.1, hs.2.1, hs.1, hs.2.2.2.2.1, fun hb => ?_⟩
            rw [hs.2.2.2.1] at hb
            exact absurd hb (by simp)
      · intro st' h
        split at h
        · exact absurd h (by simp)
        · split at h
          · rename_i hsel
            simp only [StepResult.halt.injEq] at h
            subst h
            exact ⟨rfl, rfl, (oracleSelect_eq_none_iff qs env _).mp hsel, rfl⟩
          · exact absurd h (by simp)
  · constructor
    · intro st' h
      split at h
      · exact absurd h (by simp)
      · rename_i hsel
        simp only [StepResult.next.injEq] at h
        subst h
        have hs := oracleSelect_some_spec qs env _ _ _ hsel
        exact ⟨hs.2.2.1, hs.2.1, hs.1, hs.2.2.2.2.1, fun hb => by rwa [hs.2.2.2.1] at hb⟩
    · intro st' h
      split at h
      · rename_i hsel
        simp only [StepResult.halt.injEq] at h
        subst h
        exact ⟨rfl, rfl, (oracleSelect_eq_none_iff qs env _).mp hsel, rfl⟩
      · exact absurd h (by simp)

/-- Turn bookkeeping of one asked turn, on continue. -/
theorem askAndAdvance_next_spec (qs : List QuestionRecord) (env : Env)
    (st : EngineState) (q : Str) (b : Bool) (st' : EngineState)
    (h : askAndAdvance qs env st q b = StepResult.next st') :
    st'.asked_count = st.asked_count + 1 ∧
    st'.history = st.history ++ [(q, normalizeAnswer (env.answers st.asked_count))] ∧
    st'.remaining_questions = st.remaining_questions.erase q ∧
    st'.mode_trace = st.mode_trace ++ [b] ∧
    (st'.use_csv_branching = true → st.use_csv_branching = true) := by
  unfold askAndAdvance at h
  have hs := (postAdvance_spec qs env (recordTurn st q
    (normalizeAnswer (env.answers st.asked_count)) b)
    (normalizeAnswer (env.answers st.asked_count))).1 st' h
  simp only [recordTurn] at hs
  exact ⟨hs.1, hs.2.1, hs.2.2.1, hs.2.2.2.1, hs.2.2.2.2⟩

/-- Turn bookkeeping of one asked turn, on `break`. -/
theorem askAndAdvance_halt_spec (qs : List QuestionRecord) (env : Env)
    (st : EngineState) (q : Str) (b : Bool) (st' : EngineState)
    (h : askAndAdvance qs env st q b = StepResult.halt st') :
    st'.asked_count = st.asked_count + 1 ∧
    st'.remaining_questions = [] ∧
    st'.mode_trace = st.mode_trace ++ [b] := by
  unfold askAndAdvance at h
  have hs := (postAdvance_spec qs env (recordTurn st q
    (normalizeAnswer (env.answers st.asked_count)) b)
    (normalizeAnswer (env.answers st.asked_count))).2 st' h
  simp only [recordTurn] at hs
  exact ⟨hs.1, hs.2.2.1, hs.2.2.2⟩

/-- `forceAfterFive` only (possibly) clears the branching flag. -/
theorem forceAfterFive_spec (st : EngineState) :
    (forceAfterFive st).asked_count = st.asked_count ∧
    (forceAfterFive st).history = st.history ∧
    (forceAfterFive st).remaining_questions = st.remaining_questions ∧
    (forceAfterFive st).mode_trace = st.mode_trace ∧
    ((forceAfterFive st).use_csv_branching = true → st.use_csv_branching = true) := by
  unfold forceAfterFive
  split
  · exact ⟨rfl, rfl, rfl, rfl, fun hb => by simp at hb⟩
  · exact ⟨rfl, rfl, rfl, rfl, fun hb => hb⟩

/-- One selection-plus-turn, on continue: the counter grows by one, the
history and mode trace each gain one entry, the appended trace bit is
`false` unless the turn entered in branching mode, a `false` bit leaves
the engine out of branching mode, and the branching flag never turns
back on. -/
theorem selectAndAsk_next_spec (qs : List QuestionRecord) (env : Env)
    (stA : EngineState) (st' : EngineState)
    (h : selectAndAsk qs env stA = StepResult.next st') :
    st'.asked_count = stA.asked_count + 1 ∧
    (∃ q a, st'.history = stA.history ++ [(q, a)]) ∧
    (∃ bb, st'.mode_trace = stA.mode_trace ++ [bb] ∧
      (stA.use_csv_branching = false → bb = false) ∧
      (bb = false → st'.use_csv_branching = false)) ∧
    (st'.use_csv_branching = true → stA.use_csv_branching = true) := by
  unfold selectAndAsk at h
  split at h
  · rename_i hmode
    cases hfind : findById qs stA.current_id with
    | some row =>
      rw [hfind] at h
      dsimp only at h
      have hs := askAndAdvance_next_spec qs env _ _ _ _ h
      refine ⟨hs.1, ⟨_, _, hs.2.1⟩, ⟨true, hs.2.2.2.1, ?_, ?_⟩, fun _ => hmode⟩
      · intro hcontra; rw [hcontra] at hmode; exact absurd hmode (by simp)
      · intro hcontra; exact absurd hcontra (by simp)
    | none =>
      rw [hfind] at h
      dsimp only at h
      have hs := askAndAdvance_next_spec qs env _ _ _ _ h
      refine ⟨hs.1, ⟨_, _, hs.2.1⟩, ⟨false, hs.2.2.2.1, fun _ => rfl, fun _ => ?_⟩,
        fun hb => hmode⟩
      have := hs.2.2.2.2
      by_cases hc : st'.use_csv_branching = true
      · exact absurd (this hc) (by simp)
      · simpa using hc
  · rename_i hmode
    cases hsel : oracleSelect qs env stA with
    | none => rw [hsel] at h; exact absurd h (by simp)
    | some p =>
      obtain ⟨q, stB⟩ := p
      rw [hsel] at h
      dsimp only at h
      have ho := oracleSelect_some_spec qs env _ _ _ hsel
      have hs := askAndAdvance_next_spec qs env _ _ _ _ h
      have hmode' : stA.use_csv_branching = false := by
        by_cases hc : stA.use_csv_branching = true
        · exact absurd hc hmode
        · simpa using hc
      refine ⟨by rw [hs.1, ho.2.2.1], ⟨_, _, by rw [hs.2.1, ho.2.1]⟩,
        ⟨false, by rw [hs.2.2.2.1, ho.2.2.2.2.1], fun _ => rfl, fun _ => ?_⟩,
        fun hb => absurd ((ho.2.2.2.1 ▸ hs.2.2.2.2) hb) (by simp [hmode'])⟩
      by_cases hc : st'.use_csv_branching = true
      · exact absurd (hs.2.2.2.2 hc) (by simp [ho.2.2.2.1, hmode'])
      · simpa using hc

/-- One selection-plus-turn, on `break`: the pool is empty, the counter
grew by at most one, and the trace gained at most one entry whose bit is
`false` unless the turn entered in branching mode. -/
theorem selectAndAsk_halt_spec (qs : List QuestionRecord) (env : Env)
    (stA : EngineState) (st' : EngineState)
    (h : selectAndAsk qs env stA = StepResult.halt st') :
    st'.remaining_questions = [] ∧
    st'.asked_count ≤ stA.asked_count + 1 ∧
    (st'.mode_trace = stA.mode_trace ∨
      ∃ bb, st'.mode_trace = stA.mode_trace ++ [bb] ∧
        (stA.use_csv_branching = false → bb = false)) := by
  unfold selectAndAsk at h
  split at h
  · rename_i hmode
    cases hfind : findById qs stA.current_id with
    | some row =>
      rw [hfind] at h
      dsimp only at h
      have hs := askAndAdvance_halt_spec qs env _ _ _ _ h
      exact ⟨hs.2.1, le_of_eq hs.1, Or.inr ⟨true, hs.2.2,
        fun hcontra => absurd hmode (by simp [hcontra])⟩⟩
    | none =>
      rw [hfind] at h
      dsimp only at h
      have hs := askAndAdvance_halt_spec qs env _ _ _ _ h
      exact ⟨hs.2.1, le_of_eq hs.1, Or.inr ⟨false, hs.2.2, fun _ => rfl⟩⟩
  · cases hsel : oracleSelect qs env stA with
    | none =>
      rw [hsel] at h
      simp only [StepResult.halt.injEq] at h
      subst h
      exact ⟨(oracleSelect_eq_none_iff qs env stA).mp hsel, Nat.le_succ _, Or.inl rfl⟩
    | some p =>
      obtain ⟨q, stB⟩ := p
      rw [hsel] at h
      dsimp only at h
      have ho := oracleSelect_some_spec qs env _ _ _ hsel
      have hs := askAndAdvance_halt_spec qs env _ _ _ _ h
      exact ⟨hs.2.1, by rw [hs.1, ho.2.2.1], Or.inr ⟨false,
        by rw [hs.2.2, ho.2.2.2.2.1], fun _ => rfl⟩⟩

/-- One loop iteration on continue: counter plus one, flag one-way. -/
theorem interviewStep_next_spec (qs : List QuestionRecord) (env : Env)
    (st0 : EngineState) (st' : EngineState)
    (h : interviewStep qs env st0 = StepResult.next st') :
    st'.asked_count = st0.asked_count + 1 ∧
    (∃ bb, st'.mode_trace = st0.mode_trace ++ [bb] ∧
      (st0.use_csv_branching = false → bb = false) ∧
      (bb = false → st'.use_csv_branching = false)) ∧
    (st'.use_csv_branching = true → st0.use_csv_branching = true) := by
  unfold interviewStep at h
  have hf := forceAfterFive_spec st0
  have hs := selectAndAsk_next_spec qs env _ _ h
  refine ⟨by rw [hs.1, hf.1], ?_, fun hb => hf.2.2.2.2 (hs.2.2.2 hb)⟩
  obtain ⟨bb, htr, hb1, hb2⟩ := hs.2.2.1
  refine ⟨bb, by rw [htr, hf.2.2.2.1], fun hmode => hb1 ?_, hb2⟩
  by_cases hc : (forceAfterFive st0).use_csv_branching = true
  · exact absurd (hf.2.2.2.2 hc) (by simp [hmode])
  · simpa using hc

/-- One loop iteration on `break`: empty pool, counter grew at most one. -/
theorem interviewStep_halt_spec (qs : List QuestionRecord) (env : Env)
    (st0 : EngineState) (st' : EngineState)
    (h : interviewStep qs env st0 = StepResult.halt st') :
    st'.remaining_questions = [] ∧
    st'.asked_count ≤ st0.asked_count + 1 ∧
    (st'.mode_trace = st0.mode_trace ∨
      ∃ bb, st'.mode_trace = st0.mode_trace ++ [bb] ∧
        (st0.use_csv_branching = false → bb = false)) := by
  unfold interviewStep at h
  have hf := forceAfterFive_spec st0
  have hs := selectAndAsk_halt_spec qs env _ _ h
  refine ⟨hs.1, by rw [hf.1] at hs; exact hs.2.1, ?_⟩
  rcases hs.2.2 with htr | ⟨bb, htr, hb1⟩
  · exact Or.inl (by rw [htr, hf.2.2.2.1])
  · refine Or.inr ⟨bb, by rw [htr, hf.2.2.2.1], fun hmode => hb1 ?_⟩
    by_cases hc : (forceAfterFive st0).use_csv_branching = true
    · exact absurd (hf.2.2.2.2 hc) (by simp [hmode])
    · simpa using hc

/-- The loop's terminal shape: with enough fuel, a run that did not
`break` stops exactly at the minimum count, and a run that did `break`
stops with an empty pool; the counter never passes the minimum. -/
theorem interviewLoop_terminal (qs : List QuestionRecord) (env : Env)
    (min_questions : Nat) :
    ∀ fuel st, st.asked_count ≤ min_questions →
      min_questions ≤ st.asked_count + fuel →
      (((interviewLoop qs env min_questions fuel st).2 = false ∧
          (interviewLoop qs env min_questions fuel st).1.asked_count = min_questions) ∨
        ((interviewLoop qs env min_questions fuel st).2 = true ∧
          (interviewLoop qs env min_questions fuel st).1.remaining_questions = [])) ∧
      (interviewLoop qs env min_questions fuel st).1.asked_count ≤ min_questions := by
  intro fuel
  induction fuel with
  | zero =>
    intro st h1 h2
    refine ⟨Or.inl ⟨rfl, ?_⟩, h1⟩
    show st.asked_count = min_questions
    omega
  | succ n ih =>
    intro st h1 h2
    by_cases hlt : st.asked_count < min_questions
    · have hred : interviewLoop qs env min_questions (n + 1) st =
          (match interviewStep qs env st with
           | StepResult.next st' => interviewLoop qs env min_questions n st'
           | StepResult.halt st' => (st', true)) := by
        simp only [interviewLoop, hlt, if_true]
      cases hstep : interviewStep qs env st with
      | next st' =>
        rw [hred, hstep]
        have hc := (interviewStep_next_spec qs env st st' hstep).1
        exact ih st' (by omega) (by omega)
      | halt st' =>
        rw [hred, hstep]
        have hh := interviewStep_halt_spec qs env st st' hstep
        refine ⟨Or.inr ⟨rfl, hh.1⟩, ?_⟩
        show st'.asked_count ≤ min_questions
        omega
    · have hred : interviewLoop qs env min_questions (n + 1) st = (st, false) := by
        simp only [interviewLoop, hlt, if_false]
      rw [hred]
      refine ⟨Or.inl ⟨rfl, ?_⟩, h1⟩
      show st.asked_count = min_questions
      omega

/-! ## Interview Engine theorems -/

/-- Sample records and environments for the concrete runs below. -/
def sampleQ1 : QuestionRecord := ⟨"Q1".toList, "A".toList, "Q2".toList, []⟩

def sampleQ2 : QuestionRecord := ⟨"Q2".toList, "B".toList, [], []⟩

def envAllNo : Env := ⟨fun _ => "no".toList, fun _ => none⟩

/-- C1 counterexample: with two available questions and a configured
minimum of 1, the engine stops after exactly one question with the
question "B" still available and no "no more questions" signal — it does
not keep asking past the minimum while a question is available, so
termination is not "minimum reached AND no question available". -/
theorem interview_stops_at_minimum_counterexample :
    (ask_questions [sampleQ1, sampleQ2] envAllNo "Q1".toList 1).2 = false ∧
    (ask_questions [sampleQ1, sampleQ2] envAllNo "Q1".toList 1).1.asked_count = 1 ∧
    (ask_questions [sampleQ1, sampleQ2] envAllNo "Q1".toList
      1).1.remaining_questions = ["B".toList] := by
  refine ⟨?_, ?_, ?_⟩ <;> decide

/-- C1 (amended): every interview run terminates either normally with the
turn count exactly equal to the configured minimum (regardless of whether
questions remain available), or early through pool exhaustion with the
"no more questions" signal and an empty remaining pool; the turn count
never exceeds the minimum. -/
theorem interview_terminal_condition (qs : List QuestionRecord) (env : Env)
    (start_id : Str) (min_questions : Nat) :
    (((ask_questions qs env start_id min_questions).2 = false ∧
        (ask_questions qs env start_id min_questions).1.asked_count = min_questions) ∨
      ((ask_questions qs env start_id min_questions).2 = true ∧
        (ask_questions qs env start_id
          min_questions).1.remaining_questions = [])) ∧
    (ask_questions qs env start_id min_questions).1.asked_count ≤ min_questions := by
  unfold ask_questions
  exact interviewLoop_terminal qs env min_questions min_questions
    (initialState qs start_id) (by simp [initialState]) (by simp [initialState])

/-- A boolean trace never returns to `true` after a `false`: entries at
or after a `false` entry are `false`. -/
def TraceMono (l : List Bool) : Prop :=
  ∀ i j, i ≤ j → l.get? i = some false → j < l.length → l.get? j = some false

theorem traceMono_nil : TraceMono [] := by
  intro i j _ _ hj
  simp at hj

theorem traceMono_append (l : List Bool) (b : Bool) (hmono : TraceMono l)
    (hb : false ∈ l → b = false) : TraceMono (l ++ [b]) := by
  intro i j hij hfi hjlen
  simp only [List.length_append, List.length_singleton] at hjlen
  by_cases hjl : j < l.length
  · have hil : i < l.length := lt_of_le_of_lt hij hjl
    rw [List.get?_append hjl]
    rw [List.get?_append hil] at hfi
    exact hmono i j hij hfi hjl
  · rw [List.get?_append_right (by omega)]
    have hj0 : j - l.length = 0 := by omega
    rw [hj0]
    have hbf : b = false := by
      by_cases hil : i < l.length
      · exact hb (List.get?_mem (by rwa [List.get?_append hil] at hfi))
      · have hieq : i = l.length := by omega
        rw [List.get?_append_right (by omega), hieq, Nat.sub_self] at hfi
        simpa using hfi
    rw [hbf]
    rfl

/-- The invariant carried around the loop for the mode trace: the trace
so far is monotone, and once it contains an oracle-selected turn the
branching flag is off. -/
def ModeInv (st : EngineState) : Prop :=
  TraceMono st.mode_trace ∧ (false ∈ st.mode_trace → st.use_csv_branching = false)

theorem modeInv_step_next (qs : List QuestionRecord) (env : Env)
    (st0 st' : EngineState) (h : interviewStep qs env st0 = StepResult.next st')
    (hinv : ModeInv st0) : ModeInv st' := by
  obtain ⟨_, ⟨bb, htr, hb1, hb2⟩, hflag⟩ := interviewStep_next_spec qs env st0 st' h
  constructor
  · rw [htr]
    refine traceMono_append _ _ hinv.1 (fun hf => hb1 (hinv.2 hf))
  · intro hf
    rw [htr] at hf
    rcases List.mem_append.mp hf with hf | hf
    · have h0 : st0.use_csv_branching = false := hinv.2 hf
      by_cases hc : st'.use_csv_branching = true
      · rw [hflag hc] at h0; exact absurd h0 (by simp)
      · simpa using hc
    · have : bb = false := by simpa using hf
      exact hb2 this

theorem modeInv_step_halt_trace (qs : List QuestionRecord) (env : Env)
    (st0 st' : EngineState) (h : interviewStep qs env st0 = StepResult.halt st')
    (hinv : ModeInv st0) : TraceMono st'.mode_trace := by
  rcases (interviewStep_halt_spec qs env st0 st' h).2.2 with htr | ⟨bb, htr, hb1⟩
  · rw [htr]; exact hinv.1
  · rw [htr]
    exact traceMono_append _ _ hinv.1 (fun hf => hb1 (hinv.2 hf))

/-- The final trace of the loop is monotone from any invariant state. -/
theorem interviewLoop_traceMono (qs : List QuestionRecord) (env : Env)
    (min_questions : Nat) :
    ∀ fuel st, ModeInv st →
      TraceMono (interviewLoop qs env min_questions fuel st).1.mode_trace := by
  intro fuel
  induction fuel with
  | zero => intro st hinv; exact hinv.1
  | succ n ih =>
    intro st hinv
    by_cases hlt : st.asked_count < min_questions
    · have hred : interviewLoop qs env min_questions (n + 1) st =
          (match interviewStep qs env st with
           | StepResult.next st' => interviewLoop qs env min_questions n st'
           | StepResult.halt st' => (st', true)) := by
        simp only [interviewLoop, hlt, if_true]
      cases hstep : interviewStep qs env st with
      | next st' =>
        rw [hred, hstep]
        exact ih st' (modeInv_step_next qs env st st' hstep hinv)
      | halt st' =>
        rw [hred, hstep]
        exact modeInv_step_halt_trace qs env st st' hstep hinv
    · have hred : interviewLoop qs env min_questions (n + 1) st = (st, false) := by
        simp only [interviewLoop, hlt, if_false]
      rw [hred]
      exact hinv.1

/-- C3: the mode transition is one-directional.  In the per-turn record
of how each asked question was selected (`true` = CSV branching,
`false` = oracle-driven), no oracle-driven turn is ever followed by a
branching turn: once the engine switches to oracle-driven selection —
by the five-turn rule or by any branching failure — it stays there for
the remainder of the interview. -/
theorem oracle_mode_one_directional (qs : List QuestionRecord) (env : Env)
    (start_id : Str) (min_questions : Nat) (i j : Nat) (hij : i ≤ j)
    (hi : (ask_questions qs env start_id min_questions).1.mode_trace.get? i =
      some false)
    (hj : j < (ask_questions qs env start_id min_questions).1.mode_trace.length) :
    (ask_questions qs env start_id min_questions).1.mode_trace.get? j =
      some false := by
  have hmono := interviewLoop_traceMono qs env min_questions min_questions
    (initialState qs start_id) ⟨traceMono_nil, by intro hf; simp [initialState] at hf⟩
  exact hmono i j hij hi hj

/-- Witness for `oracle_mode_one_directional`: a run whose first turn is
already oracle-selected (bogus start id), so both recorded turns are
oracle-driven. -/
theorem oracle_mode_one_directional_witness :
    (ask_questions [sampleQ1, sampleQ2] envAllNo "Q9".toList
      2).1.mode_trace.get? 1 = some false :=
  oracle_mode_one_directional [sampleQ1, sampleQ2] envAllNo "Q9".toList 2 0 1
    (by decide) (by decide) (by decide)

/-- A non-empty question frame has a non-empty pool of unique texts. -/
theorem uniqueList_ne_nil (l : List Str) (h : l ≠ []) : uniqueList l ≠ [] := by
  cases l with
  | nil => exact absurd rfl h
  | cons x xs => simp [uniqueList, uniqueAux]

/-- The invariant guaranteeing the selector is never handed an empty
pool: every logged selector call had a non-empty pool, and while in
branching mode an unresolvable current id (only possible before the
first turn, or with a falsy id) coexists with a non-empty pool. -/
def PoolInv (qs : List QuestionRecord) (st : EngineState) : Prop :=
  (∀ p ∈ st.selector_pools, p ≠ []) ∧
  (st.use_csv_branching = true → findById qs st.current_id = none →
    st.remaining_questions ≠ [])

theorem oracleSelect_pools (qs : List QuestionRecord) (env : Env)
    (st : EngineState) (q : Str) (st' : EngineState)
    (hsel : oracleSelect qs env st = some (q, st'))
    (hp : ∀ p ∈ st.selector_pools, p ≠ []) :
    ∀ p ∈ st'.selector_pools, p ≠ [] := by
  have hs := oracleSelect_some_spec qs env st q st' hsel
  intro p hmem
  rw [hs.2.2.2.2.2.2.2.1] at hmem
  rcases List.mem_append.mp hmem with hmem | hmem
  · exact hp p hmem
  · have : p = st.remaining_questions := by simpa using hmem
    rw [this]
    exact hs.2.2.2.2.2.2.2.2.1

/-- The advance phase preserves the pool invariant. -/
theorem postAdvance_poolInv (qs : List QuestionRecord) (env : Env)
    (st1 : EngineState) (answer : Str)
    (hp : ∀ p ∈ st1.selector_pools, p ≠ []) :
    (∀ st', postAdvance qs env st1 answer = StepResult.next st' →
      (∀ p ∈ st'.selector_pools, p ≠ []) ∧
      (st'.use_csv_branching = true → findById qs st'.current_id = none →
        st'.remaining_questions ≠ [])) ∧
    (∀ st', postAdvance qs env st1 answer = StepResult.halt st' →
      ∀ p ∈ st'.selector_pools, p ≠ []) := by
  unfold postAdvance
  dsimp only
  split
  · split <;>
    · constructor
      · intro st' h
        split at h
        · rename_i hvalid
          simp only [StepResult.next.injEq] at h
          subst h
          refine ⟨hp, fun _ hnone => ?_⟩
          exfalso
          obtain ⟨hne, hmem, hnew⟩ := hvalid
          obtain ⟨r, hr, hrq⟩ := List.mem_map.mp hmem
          dsimp only [findById] at hnone
          rw [List.find?_eq_none] at hnone
          exact hnone r hr (by simp [hrq])
        · split at h
          · exact absurd h (by simp)
          · rename_i hsel
            simp only [StepResult.next.injEq] at h
            subst h
            have hs := oracleSelect_some_spec qs env _ _ _ hsel
            refine ⟨oracleSelect_pools qs env _ _ _ hsel hp, fun hmode _ => ?_⟩
            rw [hs.1]
            exact hs.2.2.2.2.2.2.2.2.1
      · intro st' h
        split at h
        · exact absurd h (by simp)
        · split at h
          · simp only [StepResult.halt.injEq] at h
            subst h
            exact hp
          · exact absurd h (by simp)
  · constructor
    · intro st' h
      split at h
      · exact absurd h (by simp)
      · rename_i hsel
        simp only [StepResult.next.injEq] at h
        subst h
        have hs := oracleSelect_some_spec qs env _ _ _ hsel
        refine ⟨oracleSelect_pools qs env _ _ _ hsel hp, fun hmode _ => ?_⟩
        rw [hs.1]
        exact hs.2.2.2.2.2.2.2.2.1
    · intro st' h
      split at h
      · simp only [StepResult.halt.injEq] at h
        subst h
        exact hp
      · exact absurd h (by simp)

/-- One selection-plus-turn preserves the pool invariant. -/
theorem selectAndAsk_poolInv (qs : List QuestionRecord) (env : Env)
    (stA : EngineState) (hinv : PoolInv qs stA) :
    (∀ st', selectAndAsk qs env stA = StepResult.next st' →
      PoolInv qs st') ∧
    (∀ st', selectAndAsk qs env stA = StepResult.halt st' →
      ∀ p ∈ st'.selector_pools, p ≠ []) := by
  constructor
  · intro st' h
    unfold selectAndAsk at h
    split at h
    · rename_i hmode
      cases hfind : findById qs stA.current_id with
      | some row =>
        rw [hfind] at h
        dsimp only at h
        unfold askAndAdvance at h
        have := (postAdvance_poolInv qs env _ _ (by simpa [recordTurn] using hinv.1)).1 st' h
        exact this
      | none =>
        rw [hfind] at h
        dsimp only at h
        unfold askAndAdvance at h
        have hrem : stA.remaining_questions ≠ [] := hinv.2 hmode hfind
        have := (postAdvance_poolInv qs env _ _ ?_).1 st' h
        · exact this
        · simp only [recordTurn]
          intro p hmem
          rcases List.mem_append.mp hmem with hmem | hmem
          · exact hinv.1 p hmem
          · have : p = stA.remaining_questions := by simpa using hmem
            rw [this]; exact hrem
    · cases hsel : oracleSelect qs env stA with
      | none => rw [hsel] at h; exact absurd h (by simp)
      | some pr =>
        obtain ⟨q, stB⟩ := pr
        rw [hsel] at h
        dsimp only at h
        unfold askAndAdvance at h
        have hpB := oracleSelect_pools qs env _ _ _ hsel hinv.1
        have := (postAdvance_poolInv qs env _ _ (by simpa [recordTurn] using hpB)).1 st' h
        exact this
  · intro st' h
    unfold selectAndAsk at h
    split at h
    · rename_i hmode
      cases hfind : findById qs stA.current_id with
      | some row =>
        rw [hfind] at h
        dsimp only at h
        unfold askAndAdvance at h
        exact (postAdvance_poolInv qs env _ _ (by simpa [recordTurn] using hinv.1)).2 st' h
      | none =>
        rw [hfind] at h
        dsimp only at h
        unfold askAndAdvance at h
        have hrem : stA.remaining_questions ≠ [] := hinv.2 hmode hfind
        refine (postAdvance_poolInv qs env _ _ ?_).2 st' h
        simp only [recordTurn]
        intro p hmem
        rcases List.mem_append.mp hmem with hmem | hmem
        · exact hinv.1 p hmem
        · have : p = stA.remaining_questions := by simpa using hmem
          rw [this]; exact hrem
    · cases hsel : oracleSelect qs env stA with
      | none =>
        rw [hsel] at h
        simp only [StepResult.halt.injEq] at h
        subst h
        exact hinv.1
      | some pr =>
        obtain ⟨q, stB⟩ := pr
        rw [hsel] at h
        dsimp only at h
        unfold askAndAdvance at h
        have hpB := oracleSelect_pools qs env _ _ _ hsel hinv.1
        exact (postAdvance_poolInv qs env _ _ (by simpa [recordTurn] using hpB)).2 st' h

/-- `forceAfterFive` preserves the pool invariant. -/
theorem forceAfterFive_poolInv (qs : List QuestionRecord) (st : EngineState)
    (hinv : PoolInv qs st) : PoolInv qs (forceAfterFive st) := by
  unfold forceAfterFive
  split
  · exact ⟨hinv.1, by intro hmode; simp at hmode⟩
  · exact hinv

/-- Every selector call during the loop gets a non-empty pool. -/
theorem interviewLoop_pools (qs : List QuestionRecord) (env : Env)
    (min_questions : Nat) :
    ∀ fuel st, PoolInv qs st →
      ∀ p ∈ (interviewLoop qs env min_questions fuel st).1.selector_pools, p ≠ [] := by
  intro fuel
  induction fuel with
  | zero => intro st hinv; exact hinv.1
  | succ n ih =>
    intro st hinv
    by_cases hlt : st.asked_count < min_questions
    · have hred : interviewLoop qs env min_questions (n + 1) st =
          (match interviewStep qs env st with
           | StepResult.next st' => interviewLoop qs env min_questions n st'
           | StepResult.halt st' => (st', true)) := by
        simp only [interviewLoop, hlt, if_true]
      cases hstep : interviewStep qs env st with
      | next st' =>
        rw [hred, hstep]
        refine ih st' ?_
        have := (selectAndAsk_poolInv qs env (forceAfterFive st)
          (forceAfterFive_poolInv qs st hinv)).1 st' hstep
        exact this
      | halt st' =>
        rw [hred, hstep]
        exact (selectAndAsk_poolInv qs env (forceAfterFive st)
          (forceAfterFive_poolInv qs st hinv)).2 st' hstep
    · have hred : interviewLoop qs env min_questions (n + 1) st = (st, false) := by
        simp only [interviewLoop, hlt, if_false]
      rw [hred]
      exact hinv.1

/-- C2: pool exhaustion is the only way the engine stops before the
configured minimum; whenever it stops early it has signalled "no more
questions" over an empty pool; and (for a non-empty question source, as
`load_questions` guarantees) every oracle-driven selection was made from
a non-empty pool, so no question is ever asked after the pool has run
dry. -/
theorem pool_exhaustion_only_early_stop (qs : List QuestionRecord) (env : Env)
    (start_id : Str) (min_questions : Nat) (hq : qs ≠ []) :
    ((ask_questions qs env start_id min_questions).1.asked_count < min_questions →
      (ask_questions qs env start_id min_questions).2 = true ∧
      (ask_questions qs env start_id min_questions).1.remaining_questions = []) ∧
    ((ask_questions qs env start_id min_questions).2 = true →
      (ask_questions qs env start_id min_questions).1.remaining_questions = []) ∧
    (∀ p ∈ (ask_questions qs env start_id min_questions).1.selector_pools, p ≠ []) := by
  have hterm := interviewLoop_terminal qs env min_questions min_questions
    (initialState qs start_id) (by simp [initialState]) (by simp [initialState])
  rw [show interviewLoop qs env min_questions min_questions
    (initialState qs start_id) = ask_questions qs env start_id min_questions
    from rfl] at hterm
  have hpools : ∀ p ∈ (ask_questions qs env start_id
      min_questions).1.selector_pools, p ≠ [] := by
    unfold ask_questions
    refine interviewLoop_pools qs env min_questions min_questions
      (initialState qs start_id) ⟨by simp [initialState], fun _ _ => ?_⟩
    show uniqueList (qs.map (fun r => r.text)) ≠ []
    exact uniqueList_ne_nil _ (by simpa using hq)
  refine ⟨fun hlt => ?_, fun hearly => ?_, hpools⟩
  · rcases hterm.1 with ⟨hf, hcount⟩ | h
    · omega
    · exact h
  · rcases hterm.1 with ⟨hf, _⟩ | h
    · rw [hearly] at hf; exact absurd hf (by simp)
    · exact h.2

/-- Witness for `pool_exhaustion_only_early_stop`: a single-question
source with minimum 5 stops after one question, early, with the pool
empty. -/
theorem pool_exhaustion_only_early_stop_witness :
    (ask_questions [sampleQ1] envAllNo "Q1".toList 5).1.asked_count < 5 ∧
    (ask_questions [sampleQ1] envAllNo "Q1".toList 5).2 = true ∧
    (ask_questions [sampleQ1] envAllNo "Q1".toList 5).1.remaining_questions = [] :=
  ⟨by decide,
    (pool_exhaustion_only_early_stop [sampleQ1] envAllNo "Q1".toList 5
      (by simp)).1 (by decide)⟩

/-- C6 counterexample: called with an empty pool, the selector does not
fail with an `EmptyPoolError` (or any error): the indexing failure is
swallowed by the oracle-failure handler, and the call returns the
ordinary question "Do you have any other interests?". -/
theorem selector_empty_pool_no_error_counterexample :
    get_next_question_from_gemini [] [] none = fallbackQuestion := by decide

/-- C6 (amended): for a non-empty question source the engine never
invokes the selector with an empty pool; and a (hypothetical) call with
an empty pool does not fail with a distinguished error but returns the
fixed fallback question. -/
theorem selector_never_called_empty_pool (qs : List QuestionRecord) (env : Env)
    (start_id : Str) (min_questions : Nat) (hq : qs ≠ []) :
    (∀ p ∈ (ask_questions qs env start_id min_questions).1.selector_pools, p ≠ []) ∧
    (∀ history resp, get_next_question_from_gemini history [] resp =
      fallbackQuestion) := by
  constructor
  · unfold ask_questions
    refine interviewLoop_pools qs env min_questions min_questions
      (initialState qs start_id) ⟨by simp [initialState], fun _ _ => ?_⟩
    show uniqueList (qs.map (fun r => r.text)) ≠ []
    exact uniqueList_ne_nil _ (by simpa using hq)
  · intro history resp
    unfold get_next_question_from_gemini
    match resp with
    | some t => simp [show pyStrip t ∉ ([] : List Str) by simp]
    | none => rfl

/-- Witness for `selector_never_called_empty_pool`: a run that makes
three selector calls (bogus start id), all with non-empty pools. -/
theorem selector_never_called_empty_pool_witness :
    (∀ p ∈ (ask_questions [sampleQ1, sampleQ2] envAllNo "Q9".toList
      2).1.selector_pools, p ≠ []) ∧
    get_next_question_from_gemini [] [] (some "x".toList) = fallbackQuestion :=
  ⟨(selector_never_called_empty_pool [sampleQ1, sampleQ2] envAllNo "Q9".toList 2
      (by simp)).1,
    (selector_never_called_empty_pool [sampleQ1, sampleQ2] envAllNo "Q9".toList 2
      (by simp)).2 [] (some "x".toList)⟩

/-! ## No-duplicates and minimum-count invariant (C4) -/

/-- The texts asked so far, in order. -/
def histTexts (st : EngineState) : List Str := st.history.map Prod.fst

/-- The mode-independent part of the C4 invariant: the remaining pool is
exactly the initial pool minus the asked texts (as duplicate-free sets),
the asked texts are duplicate-free, and the turn counter equals the
history length. -/
def C4Core (pool : List Str) (st : EngineState) : Prop :=
  st.remaining_questions.Nodup ∧
  (∀ t, t ∈ st.remaining_questions ↔ t ∈ pool ∧ t ∉ histTexts st) ∧
  (histTexts st).Nodup ∧
  st.history.length = st.asked_count

/-- The branching-mode part of the C4 invariant: every asked text's
record id is marked asked, a dangling current id implies a non-empty
pool, and either no turn has happened or the current id is unasked. -/
def C4Mode (qs : List QuestionRecord) (st : EngineState) : Prop :=
  st.use_csv_branching = true →
    ((∀ r ∈ qs, r.text ∈ histTexts st → r.qid ∈ st.asked_ids) ∧
     (findById qs st.current_id = none → st.remaining_questions ≠ []) ∧
     (st.history = [] ∨ ∃ c, st.current_id = some c ∧ c ∉ st.asked_ids))

theorem addAsked_subset (s : List Str) (x y : Str) (h : y ∈ s) :
    y ∈ addAsked s x := by
  unfold addAsked
  split
  · exact h
  · simp [h]

theorem addAsked_self (s : List Str) (x : Str) : x ∈ addAsked s x := by
  unfold addAsked
  split
  · assumption
  · simp

theorem truthyO_of_ne (c : Str) (h : c ≠ []) : truthyO (some c) = true := by
  cases c with
  | nil => exact absurd rfl h
  | cons a l => simp [truthyO]

/-- `C4Core` only depends on the pool, history and counter fields. -/
theorem c4core_of_fields (pool : List Str) (st st' : EngineState)
    (h1 : st'.remaining_questions = st.remaining_questions)
    (h2 : st'.history = st.history) (h3 : st'.asked_count = st.asked_count)
    (hc : C4Core pool st) : C4Core pool st' := by
  unfold C4Core histTexts at hc ⊢
  rw [h1, h2, h3]
  exact hc

theorem histTexts_recordTurn (st : EngineState) (q a : Str) (b : Bool) :
    histTexts (recordTurn st q a b) = histTexts st ++ [q] := by
  simp [histTexts, recordTurn]

/-- Recording a turn on a pool member preserves the core invariant. -/
theorem recordTurn_c4core (pool : List Str) (st : EngineState) (q a : Str)
    (b : Bool) (hq : q ∈ st.remaining_questions) (hc : C4Core pool st) :
    C4Core pool (recordTurn st q a b) := by
  obtain ⟨hnd, hmem, hhnd, hlen⟩ := hc
  have hqpool := (hmem q).mp hq
  refine ⟨?_, ?_, ?_, ?_⟩
  · exact hnd.erase q
  · intro t
    show t ∈ st.remaining_questions.erase q ↔ _
    rw [hnd.mem_erase_iff, hmem t, histTexts_recordTurn]
    simp only [List.mem_append, List.mem_singleton]
    constructor
    · rintro ⟨hne, hp, hh⟩
      exact ⟨hp, fun hor => hor.elim hh hne⟩
    · rintro ⟨hp, hh⟩
      exact ⟨fun he => hh (Or.inr he), hp, fun hm => hh (Or.inl hm)⟩
  · rw [histTexts_recordTurn]
    simp [List.nodup_append, hhnd, hqpool.2]
  · simp [recordTurn, hlen]

/-- The advance phase preserves the C4 invariant. -/
theorem postAdvance_c4 (qs : List QuestionRecord) (pool : List Str) (env : Env)
    (st1 : EngineState) (answer : Str)
    (hcore : C4Core pool st1)
    (hI3 : st1.use_csv_branching = true →
      ∀ r ∈ qs, r.text ∈ histTexts st1 → r.qid ∈ st1.asked_ids)
    (htruthy : st1.use_csv_branching = true → truthyO st1.current_id = true) :
    (∀ st', postAdvance qs env st1 answer = StepResult.next st' →
      C4Core pool st' ∧ C4Mode qs st') ∧
    (∀ st', postAdvance qs env st1 answer = StepResult.halt st' →
      C4Core pool st') := by
  unfold postAdvance
  dsimp only
  split
  · rename_i hguard
    split <;>
    · constructor
      · intro st' h
        split at h
        · rename_i hvalid
          simp only [StepResult.next.injEq] at h
          subst h
          refine ⟨c4core_of_fields pool st1 _ rfl rfl rfl hcore, fun hmode => ?_⟩
          refine ⟨hI3 hguard.1, fun hnone => ?_, Or.inr ⟨_, rfl, hvalid.2.2⟩⟩
          exfalso
          obtain ⟨hne, hmem, hnew⟩ := hvalid
          obtain ⟨r, hr, hrq⟩ := List.mem_map.mp hmem
          dsimp only [findById] at hnone
          rw [List.find?_eq_none] at hnone
          exact hnone r hr (by simp [hrq])
        · split at h
          · exact absurd h (by simp)
          · rename_i hsel
            simp only [StepResult.next.injEq] at h
            subst h
            have hs := oracleSelect_some_spec qs env _ _ _ hsel
            refine ⟨c4core_of_fields pool st1 _ hs.1 hs.2.1 hs.2.2.1 hcore,
              fun hmode => ?_⟩
            rw [hs.2.2.2.1] at hmode
            exact absurd hmode (by simp)
      · intro st' h
        split at h
        · exact absurd h (by simp)
        · split at h
          · simp only [StepResult.halt.injEq] at h
            subst h
            exact c4core_of_fields pool st1 _ rfl rfl rfl hcore
          · exact absurd h (by simp)
  · rename_i hguard
    have hmode1 : st1.use_csv_branching = false := by
      by_cases hc : st1.use_csv_branching = true
      · exact absurd ⟨hc, htruthy hc⟩ hguard
      · simpa using hc
    constructor
    · intro st' h
      split at h
      · exact absurd h (by simp)
      · rename_i hsel
        simp only [StepResult.next.injEq] at h
        subst h
        have hs := oracleSelect_some_spec qs env _ _ _ hsel
        refine ⟨c4core_of_fields pool st1 _ hs.1 hs.2.1 hs.2.2.1 hcore,
          fun hmode => ?_⟩
        rw [hs.2.2.2.1, hmode1] at hmode
        exact absurd hmode (by simp)
    · intro st' h
      split at h
      · simp only [StepResult.halt.injEq] at h
        subst h
        exact hcore
      · exact absurd h (by simp)

theorem findById_some (qs : List QuestionRecord) (o : Option Str)
    (row : QuestionRecord) (h : findById qs o = some row) :
    ∃ c, o = some c ∧ row ∈ qs ∧ row.qid = c := by
  unfold findById at h
  cases o with
  | none => simp at h
  | some c =>
    exact ⟨c, rfl, List.mem_of_find?_eq_some h, by
      have := List.find?_some h
      simpa using this⟩

/-- One selection-plus-turn preserves the C4 invariant, for a valid
source: unique texts, non-empty ids. -/
theorem selectAndAsk_c4 (qs : List QuestionRecord) (pool : List Str) (env : Env)
    (stA : EngineState)
    (hpool : pool = qs.map (fun r => r.text))
    (htext : (qs.map (fun r => r.text)).Nodup)
    (hqid : ∀ r ∈ qs, r.qid ≠ [])
    (hinv : C4Core pool stA ∧ C4Mode qs stA) :
    (∀ st', selectAndAsk qs env stA = StepResult.next st' →
      C4Core pool st' ∧ C4Mode qs st') ∧
    (∀ st', selectAndAsk qs env stA = StepResult.halt st' →
      C4Core pool st') := by
  constructor
  · intro st' h
    unfold selectAndAsk at h
    split at h
    · rename_i hmode
      cases hfind : findById qs stA.current_id with
      | some row =>
        rw [hfind] at h
        obtain ⟨c, hcur, hrowmem, hrowqid⟩ := findById_some qs stA.current_id row hfind
        rw [hcur] at h
        dsimp only at h
        unfold askAndAdvance at h
        dsimp only at h
        have hmA := hinv.2 hmode
        have htext_notin : row.text ∉ histTexts stA := by
          intro hmem
          rcases hmA.2.2 with hempty | ⟨c2, hc2, hc2not⟩
          · rw [show histTexts stA = [] from by simp [histTexts, hempty]] at hmem
            simp at hmem
          · rw [hcur] at hc2
            injection hc2 with hc2
            subst hc2
            exact hc2not (hrowqid ▸ hmA.1 row hrowmem hmem)
        have htext_rem : row.text ∈ stA.remaining_questions :=
          (hinv.1.2.1 row.text).mpr
            ⟨by rw [hpool]; exact List.mem_map.mpr ⟨row, hrowmem, rfl⟩, htext_notin⟩
        have hcore1 : C4Core pool (recordTurn
            { stA with asked_ids := addAsked stA.asked_ids c,
                       current_id := some c,
                       next_yes := row.nextIfYes, next_no := row.nextIfNo }
            row.text (normalizeAnswer (env.answers stA.asked_count)) true) := by
          refine recordTurn_c4core pool _ _ _ _ ?_ ?_
          · exact htext_rem
          · exact c4core_of_fields pool stA _ rfl rfl rfl hinv.1
        have hI31 : ∀ r ∈ qs, r.text ∈ histTexts (recordTurn
            { stA with asked_ids := addAsked stA.asked_ids c,
                       current_id := some c,
                       next_yes := row.nextIfYes, next_no := row.nextIfNo }
            row.text (normalizeAnswer (env.answers stA.asked_count)) true) →
            r.qid ∈ addAsked stA.asked_ids c := by
          intro r hr hrt
          rw [histTexts_recordTurn] at hrt
          rcases List.mem_append.mp hrt with hrt | hrt
          · exact addAsked_subset _ _ _ (hmA.1 r hr hrt)
          · have hre : r.text = row.text := by simpa using hrt
            have : r = row := List.inj_on_of_nodup_map htext hr hrowmem hre
            rw [this, hrowqid]
            exact addAsked_self _ _
        have htr1 : truthyO (some c) = true :=
          truthyO_of_ne c (hrowqid ▸ hqid row hrowmem)
        exact (postAdvance_c4 qs pool env
          (recordTurn
            { stA with asked_ids := addAsked stA.asked_ids c,
                       current_id := some c,
                       next_yes := row.nextIfYes, next_no := row.nextIfNo }
            row.text (normalizeAnswer (env.answers stA.asked_count)) true)
          (normalizeAnswer (env.answers stA.asked_count))
          hcore1 (fun _ => hI31) (fun _ => htr1)).1 st' h
      | none =>
        rw [hfind] at h
        dsimp only at h
        unfold askAndAdvance at h
        dsimp only at h
        have hrem : stA.remaining_questions ≠ [] := (hinv.2 hmode).2.1 hfind
        have hq_rem : get_next_question_from_gemini stA.history
            stA.remaining_questions (env.oracle stA.oracle_calls) ∈
            stA.remaining_questions := by
          cases hr : stA.remaining_questions with
          | nil => exact absurd hr hrem
          | cons q0 rest => exact get_next_question_mem _ q0 rest _
        have hcore1 : C4Core pool (recordTurn
            { stA with use_csv_branching := false,
                       oracle_calls := stA.oracle_calls + 1,
                       selector_pools := stA.selector_pools ++ [stA.remaining_questions],
                       current_id := none }
            (get_next_question_from_gemini stA.history stA.remaining_questions
              (env.oracle stA.oracle_calls))
            (normalizeAnswer (env.answers stA.asked_count)) false) := by
          refine recordTurn_c4core pool _ _ _ _ ?_ ?_
          · exact hq_rem
          · exact c4core_of_fields pool stA _ rfl rfl rfl hinv.1
        refine (postAdvance_c4 qs pool env _ _ hcore1
          (fun hm => ?_) (fun hm => ?_)).1 st' h <;> simp [recordTurn] at hm
    · rename_i hmode
      cases hsel : oracleSelect qs env stA with
      | none => rw [hsel] at h; exact absurd h (by simp)
      | some pr =>
      obtain ⟨q, stB⟩ := pr
      rw [hsel] at h
      dsimp only at h
      unfold askAndAdvance at h
      dsimp only at h
      have hmodeF : stA.use_csv_branching = false := by
        by_cases hc : stA.use_csv_branching = true
        · exact absurd hc hmode
        · simpa using hc
      have ho := oracleSelect_some_spec qs env _ _ _ hsel
      have hcoreB : C4Core pool stB :=
        c4core_of_fields pool stA stB ho.1 ho.2.1 ho.2.2.1 hinv.1
      have hq_rem : q ∈ stB.remaining_questions := by
        rw [ho.1]
        exact ho.2.2.2.2.2.2.2.2.2
      have hcore1 : C4Core pool (recordTurn stB q
          (normalizeAnswer (env.answers stB.asked_count)) false) :=
        recordTurn_c4core pool _ _ _ _ hq_rem hcoreB
      have hmodeB : stB.use_csv_branching = false := by
        rw [ho.2.2.2.1, hmodeF]
      refine (postAdvance_c4 qs pool env _ _ hcore1
        (fun hm => ?_) (fun hm => ?_)).1 st' h <;> simp [recordTurn, hmodeB] at hm
  · intro st' h
    unfold selectAndAsk at h
    split at h
    · rename_i hmode
      cases hfind : findById qs stA.current_id with
      | some row =>
        rw [hfind] at h
        obtain ⟨c, hcur, hrowmem, hrowqid⟩ := findById_some qs stA.current_id row hfind
        rw [hcur] at h
        dsimp only at h
        unfold askAndAdvance at h
        dsimp only at h
        have hmA := hinv.2 hmode
        have htext_notin : row.text ∉ histTexts stA := by
          intro hmem
          rcases hmA.2.2 with hempty | ⟨c2, hc2, hc2not⟩
          · rw [show histTexts stA = [] from by simp [histTexts, hempty]] at hmem
            simp at hmem
          · rw [hcur] at hc2
            injection hc2 with hc2
            subst hc2
            exact hc2not (hrowqid ▸ hmA.1 row hrowmem hmem)
        have htext_rem : row.text ∈ stA.remaining_questions :=
          (hinv.1.2.1 row.text).mpr
            ⟨by rw [hpool]; exact List.mem_map.mpr ⟨row, hrowmem, rfl⟩, htext_notin⟩
        have hcore1 : C4Core pool (recordTurn
            { stA with asked_ids := addAsked stA.asked_ids c,
                       current_id := some c,
                       next_yes := row.nextIfYes, next_no := row.nextIfNo }
            row.text (normalizeAnswer (env.answers stA.asked_count)) true) := by
          refine recordTurn_c4core pool _ _ _ _ ?_ ?_
          · exact htext_rem
          · exact c4core_of_fields pool stA _ rfl rfl rfl hinv.1
        have hI31 : ∀ r ∈ qs, r.text ∈ histTexts (recordTurn
            { stA with asked_ids := addAsked stA.asked_ids c,
                       current_id := some c,
                       next_yes := row.nextIfYes, next_no := row.nextIfNo }
            row.text (normalizeAnswer (env.answers stA.asked_count)) true) →
            r.qid ∈ addAsked stA.asked_ids c := by
          intro r hr hrt
          rw [histTexts_recordTurn] at hrt
          rcases List.mem_append.mp hrt with hrt | hrt
          · exact addAsked_subset _ _ _ (hmA.1 r hr hrt)
          · have hre : r.text = row.text := by simpa using hrt
            have : r = row := List.inj_on_of_nodup_map htext hr hrowmem hre
            rw [this, hrowqid]
            exact addAsked_self _ _
        have htr1 : truthyO (some c) = true :=
          truthyO_of_ne c (hrowqid ▸ hqid row hrowmem)
        exact (postAdvance_c4 qs pool env
          (recordTurn
            { stA with asked_ids := addAsked stA.asked_ids c,
                       current_id := some c,
                       next_yes := row.nextIfYes, next_no := row.nextIfNo }
            row.text (normalizeAnswer (env.answers stA.asked_count)) true)
          (normalizeAnswer (env.answers stA.asked_count))
          hcore1 (fun _ => hI31) (fun _ => htr1)).2 st' h
      | none =>
        rw [hfind] at h
        dsimp only at h
        unfold askAndAdvance at h
        dsimp only at h
        have hrem : stA.remaining_questions ≠ [] := (hinv.2 hmode).2.1 hfind
        have hq_rem : get_next_question_from_gemini stA.history
            stA.remaining_questions (env.oracle stA.oracle_calls) ∈
            stA.remaining_questions := by
          cases hr : stA.remaining_questions with
          | nil => exact absurd hr hrem
          | cons q0 rest => exact get_next_question_mem _ q0 rest _
        have hcore1 : C4Core pool (recordTurn
            { stA with use_csv_branching := false,
                       oracle_calls := stA.oracle_calls + 1,
                       selector_pools := stA.selector_pools ++ [stA.remaining_questions],
                       current_id := none }
            (get_next_question_from_gemini stA.history stA.remaining_questions
              (env.oracle stA.oracle_calls))
            (normalizeAnswer (env.answers stA.asked_count)) false) := by
          refine recordTurn_c4core pool _ _ _ _ ?_ ?_
          · exact hq_rem
          · exact c4core_of_fields pool stA _ rfl rfl rfl hinv.1
        refine (postAdvance_c4 qs pool env _ _ hcore1
          (fun hm => ?_) (fun hm => ?_)).2 st' h <;> simp [recordTurn] at hm
    · rename_i hmode
      cases hsel : oracleSelect qs env stA with
      | none =>
        rw [hsel] at h
        simp only [StepResult.halt.injEq] at h
        subst h
        exact hinv.1
      | some pr =>
      obtain ⟨q, stB⟩ := pr
      rw [hsel] at h
      dsimp only at h
      unfold askAndAdvance at h
      dsimp only at h
      have hmodeF : stA.use_csv_branching = false := by
        by_cases hc : stA.use_csv_branching = true
        · exact absurd hc hmode
        · simpa using hc
      have ho := oracleSelect_some_spec qs env _ _ _ hsel
      have hcoreB : C4Core pool stB :=
        c4core_of_fields pool stA stB ho.1 ho.2.1 ho.2.2.1 hinv.1
      have hq_rem : q ∈ stB.remaining_questions := by
        rw [ho.1]
        exact ho.2.2.2.2.2.2.2.2.2
      have hcore1 : C4Core pool (recordTurn stB q
          (normalizeAnswer (env.answers stB.asked_count)) false) :=
        recordTurn_c4core pool _ _ _ _ hq_rem hcoreB
      have hmodeB : stB.use_csv_branching = false := by
        rw [ho.2.2.2.1, hmodeF]
      refine (postAdvance_c4 qs pool env _ _ hcore1
        (fun hm => ?_) (fun hm => ?_)).2 st' h <;> simp [recordTurn, hmodeB] at hm

theorem forceAfterFive_c4 (qs : List QuestionRecord) (pool : List Str)
    (st : EngineState) (hinv : C4Core pool st ∧ C4Mode qs st) :
    C4Core pool (forceAfterFive st) ∧ C4Mode qs (forceAfterFive st) := by
  unfold forceAfterFive
  split
  · exact ⟨c4core_of_fields pool st _ rfl rfl rfl hinv.1,
      fun hmode => by simp at hmode⟩
  · exact hinv

/-- The loop preserves the C4 invariant and delivers its core at exit. -/
theorem interviewLoop_c4 (qs : List QuestionRecord) (pool : List Str) (env : Env)
    (min_questions : Nat)
    (hpool : pool = qs.map (fun r => r.text))
    (htext : (qs.map (fun r => r.text)).Nodup)
    (hqid : ∀ r ∈ qs, r.qid ≠ []) :
    ∀ fuel st, C4Core pool st ∧ C4Mode qs st →
      C4Core pool (interviewLoop qs env min_questions fuel st).1 := by
  intro fuel
  induction fuel with
  | zero => intro st hinv; exact hinv.1
  | succ n ih =>
    intro st hinv
    by_cases hlt : st.asked_count < min_questions
    · have hred : interviewLoop qs env min_questions (n + 1) st =
          (match interviewStep qs env st with
           | StepResult.next st' => interviewLoop qs env min_questions n st'
           | StepResult.halt st' => (st', true)) := by
        simp only [interviewLoop, hlt, if_true]
      cases hstep : interviewStep qs env st with
      | next st' =>
        rw [hred, hstep]
        exact ih st' ((selectAndAsk_c4 qs pool env (forceAfterFive st) hpool htext
          hqid (forceAfterFive_c4 qs pool st hinv)).1 st' hstep)
      | halt st' =>
        rw [hred, hstep]
        exact (selectAndAsk_c4 qs pool env (forceAfterFive st) hpool htext hqid
          (forceAfterFive_c4 qs pool st hinv)).2 st' hstep
    · have hred : interviewLoop qs env min_questions (n + 1) st = (st, false) := by
        simp only [interviewLoop, hlt, if_false]
      rw [hred]
      exact hinv.1

theorem uniqueAux_of_nodup :
    ∀ (l seen : List Str), l.Nodup → (∀ y ∈ seen, y ∉ l) → uniqueAux l seen = l := by
  intro l
  induction l with
  | nil => intro seen _ _; rfl
  | cons x xs ih =>
    intro seen hnd hseen
    unfold uniqueAux
    have hx : x ∉ seen := fun hx => hseen x hx (by simp)
    rw [if_neg hx]
    congr 1
    refine ih (x :: seen) (List.Nodup.of_cons hnd) ?_
    intro y hy
    rcases List.mem_cons.mp hy with hy | hy
    · rw [hy]
      exact (List.nodup_cons.mp hnd).1
    · intro hmem
      exact hseen y hy (List.mem_cons_of_mem x hmem)

/-- `pandas.unique` is the identity on a duplicate-free column. -/
theorem uniqueList_of_nodup (l : List Str) (h : l.Nodup) : uniqueList l = l :=
  uniqueAux_of_nodup l [] h (by simp)

theorem nodup_subset_length (l₁ l₂ : List Str) (h1 : l₁.Nodup) (hs : l₁ ⊆ l₂) :
    l₁.length ≤ l₂.length := by
  classical
  calc l₁.length = l₁.toFinset.card := (List.toFinset_card_of_nodup h1).symm
  _ ≤ l₂.toFinset.card := Finset.card_le_card
      (fun x hx => List.mem_toFinset.mpr (hs (List.mem_toFinset.mp hx)))
  _ ≤ l₂.length := l₂.toFinset_card_le

/-- C4: for a valid question source (texts unique, ids well-formed and in
particular non-empty, at least one record), every interview asks at
least `min(minimumTurns, number of distinct question texts)` questions,
and no question text is ever asked twice. -/
theorem min_questions_no_duplicates (qs : List QuestionRecord) (env : Env)
    (start_id : Str) (min_questions : Nat)
    (htext : (qs.map (fun r => r.text)).Nodup)
    (hqid : ∀ r ∈ qs, r.qid ≠ [])
    (hq : qs ≠ []) :
    min min_questions (uniqueList (qs.map (fun r => r.text))).length ≤
      (ask_questions qs env start_id min_questions).1.asked_count ∧
    ((ask_questions qs env start_id
      min_questions).1.history.map Prod.fst).Nodup := by
  have hpool : uniqueList (qs.map (fun r => r.text)) = qs.map (fun r => r.text) :=
    uniqueList_of_nodup _ htext
  have hinit : C4Core (uniqueList (qs.map (fun r => r.text)))
      (initialState qs start_id) ∧
      C4Mode qs (initialState qs start_id) := by
    constructor
    · refine ⟨?_, ?_, ?_, ?_⟩
      · show (uniqueList (qs.map (fun r => r.text))).Nodup
        rw [hpool]
        exact htext
      · intro t
        show t ∈ uniqueList (qs.map (fun r => r.text)) ↔ _
        simp [histTexts, initialState]
      · simp [histTexts, initialState]
      · rfl
    · intro _
      refine ⟨by simp [histTexts, initialState], fun _ => ?_, Or.inl rfl⟩
      show uniqueList (qs.map (fun r => r.text)) ≠ []
      exact uniqueList_ne_nil _ (by simpa using hq)
  have hfin := interviewLoop_c4 qs (uniqueList (qs.map (fun r => r.text))) env
    min_questions hpool htext hqid min_questions (initialState qs start_id) hinit
  have hterm := interviewLoop_terminal qs env min_questions min_questions
    (initialState qs start_id) (by simp [initialState]) (by simp [initialState])
  rw [show interviewLoop qs env min_questions min_questions
    (initialState qs start_id) = ask_questions qs env start_id min_questions
    from rfl] at hfin hterm
  obtain ⟨hnd, hmem, hhnd, hlen⟩ := hfin
  refine ⟨?_, hhnd⟩
  rcases hterm.1 with ⟨_, hcount⟩ | ⟨_, hempty⟩
  · rw [hcount]
    exact min_le_left _ _
  · have hsub : uniqueList (qs.map (fun r => r.text)) ⊆
        histTexts (ask_questions qs env start_id min_questions).1 := by
      intro t ht
      by_cases hh : t ∈ histTexts (ask_questions qs env start_id min_questions).1
      · exact hh
      · exact absurd ((hmem t).mpr ⟨ht, hh⟩) (by simp [hempty])
    have hle := nodup_subset_length _ _ (by rw [hpool]; exact htext) hsub
    have hlen2 : (histTexts (ask_questions qs env start_id
        min_questions).1).length =
        (ask_questions qs env start_id min_questions).1.asked_count := by
      rw [histTexts, List.length_map]
      exact hlen
    calc min min_questions (uniqueList (qs.map (fun r => r.text))).length ≤
        (uniqueList (qs.map (fun r => r.text))).length := min_le_right _ _
    _ ≤ _ := hlen2 ▸ hle

/-- Witness for `min_questions_no_duplicates`: two unique questions,
minimum 2: both are asked, no duplicates. -/
theorem min_questions_no_duplicates_witness :
    min 2 (uniqueList ([sampleQ1, sampleQ2].map (fun r => r.text))).length ≤
      (ask_questions [sampleQ1, sampleQ2] envAllNo "Q1".toList 2).1.asked_count ∧
    ((ask_questions [sampleQ1, sampleQ2] envAllNo "Q1".toList
      2).1.history.map Prod.fst).Nodup :=
  min_questions_no_duplicates [sampleQ1, sampleQ2] envAllNo "Q1".toList 2
    (by decide) (by decide) (by decide)

/-! ## Extractor correctness: occurrences and `findFrom` -/

/-- `pat` occurs in `text` at position `m`. -/
def occursAt (text pat : Str) (m : Nat) : Prop :=
  (text.drop m).take pat.length = pat

theorem occursAt_iff (text pat : Str) (m : Nat) :
    occursAt text pat m ↔ ∃ r, text.drop m = pat ++ r := by
  unfold occursAt
  constructor
  · intro h
    refine ⟨(text.drop m).drop pat.length, ?_⟩
    conv_lhs => rw [← List.take_append_drop pat.length (text.drop m)]
    rw [h]
  · rintro ⟨r, hr⟩
    rw [hr, List.take_left]

theorem isPrefixOf_iff_take (pat l : Str) :
    pat.isPrefixOf l = true ↔ l.take pat.length = pat := by
  induction pat generalizing l with
  | nil => simp [List.isPrefixOf]
  | cons p ps ih =>
    cases l with
    | nil => simp [List.isPrefixOf]
    | cons x xs =>
      simp only [List.isPrefixOf, Bool.and_eq_true, beq_iff_eq, List.length_cons,
        List.take_succ_cons, List.cons.injEq]
      constructor
      · rintro ⟨hpx, hps⟩
        exact ⟨hpx.symm, (ih xs).mp hps⟩
      · rintro ⟨hxp, htake⟩
        exact ⟨hxp.symm, (ih xs).mpr htake⟩

theorem occursAt_of_drop (text pat r : Str) (m : Nat)
    (h : text.drop m = pat ++ r) : occursAt text pat m :=
  (occursAt_iff text pat m).mpr ⟨r, h⟩

theorem occursAt_get? (text pat : Str) (m : Nat) (h : occursAt text pat m) :
    ∀ j, j < pat.length → text.get? (m + j) = pat.get? j := by
  intro j hj
  obtain ⟨r, hr⟩ := (occursAt_iff text pat m).mp h
  calc text.get? (m + j) = (text.drop m).get? j := (List.get?_drop text m j).symm
  _ = pat.get? j := by rw [hr, List.get?_append (by omega)]

theorem occursAt_char (text pat : Str) (m p : Nat) (h : occursAt text pat m)
    (h1 : m ≤ p) (h2 : p < m + pat.length) :
    ∃ ch, text.get? p = some ch ∧ ch ∈ pat := by
  have hj := occursAt_get? text pat m h (p - m) (by omega)
  rw [show m + (p - m) = p from by omega] at hj
  have hlt : p - m < pat.length := by omega
  refine ⟨pat.get ⟨p - m, hlt⟩, ?_, ?_⟩
  · rw [hj, List.get?_eq_get hlt]
  · apply List.get_mem

theorem occursAt_bound (text pat : Str) (m : Nat) (hpat : pat ≠ [])
    (h : occursAt text pat m) : m + pat.length ≤ text.length := by
  obtain ⟨r, hr⟩ := (occursAt_iff text pat m).mp h
  have hlen : text.length - m = pat.length + r.length := by
    rw [← List.length_drop, hr, List.length_append]
  by_cases hm : m ≤ text.length
  · omega
  · exfalso
    rw [List.drop_eq_nil_of_le (by omega)] at hr
    exact hpat (by cases pat with
      | nil => rfl
      | cons a l => simp at hr)

theorem not_occursAt_of_drop_nil (text pat : Str) (cur m : Nat)
    (hpat : pat ≠ []) (hnil : text.drop cur = []) (hm : cur ≤ m) :
    ¬ occursAt text pat m := by
  intro h
  obtain ⟨r, hr⟩ := (occursAt_iff text pat m).mp h
  have : text.drop m = [] := by
    rw [show m = cur + (m - cur) from by omega, ← List.drop_drop, hnil]
    simp
  rw [this] at hr
  exact hpat (by cases pat with
    | nil => rfl
    | cons a l => simp at hr)

theorem findFromGo_some (text pat : Str) :
    ∀ steps i p, findFromGo text pat i steps = some p →
      i ≤ p ∧ occursAt text pat p ∧
      ∀ m, i ≤ m → m < p → ¬ occursAt text pat m := by
  intro steps
  induction steps with
  | zero => intro i p h; simp [findFromGo] at h
  | succ n ih =>
    intro i p h
    unfold findFromGo at h
    split at h
    · rename_i hpre
      simp only [Option.some.injEq] at h
      subst h
      exact ⟨le_refl _, (isPrefixOf_iff_take pat _).mp hpre, fun m h1 h2 => by omega⟩
    · rename_i hpre
      obtain ⟨h1, h2, h3⟩ := ih (i + 1) p h
      refine ⟨by omega, h2, fun m hm1 hm2 => ?_⟩
      by_cases hmi : m = i
      · subst hmi
        intro hocc
        exact hpre ((isPrefixOf_iff_take pat _).mpr hocc)
      · exact h3 m (by omega) hm2

theorem findFromGo_finds (text pat : Str) :
    ∀ steps i p, occursAt text pat p → i ≤ p → p < i + steps →
      (∀ m, i ≤ m → m < p → ¬ occursAt text pat m) →
      findFromGo text pat i steps = some p := by
  intro steps
  induction steps with
  | zero => intro i p _ _ h; omega
  | succ n ih =>
    intro i p hocc h1 h2 hmin
    unfold findFromGo
    by_cases hip : i = p
    · subst hip
      rw [if_pos ((isPrefixOf_iff_take pat _).mpr hocc)]
    · rw [if_neg ?_]
      · exact ih (i + 1) p hocc (by omega) (by omega) (fun m hm1 hm2 => hmin m (by omega) hm2)
      · intro hpre
        exact hmin i (le_refl _) (by omega) ((isPrefixOf_iff_take pat _).mp hpre)

/-- Characterization of a successful `findFrom`. -/
theorem findFrom_some_spec (text pat : Str) (start p : Nat)
    (h : findFrom text pat start = some p) :
    start ≤ p ∧ occursAt text pat p ∧
    ∀ m, start ≤ m → m < p → ¬ occursAt text pat m :=
  findFromGo_some text pat _ start p h

/-- `findFrom` returns the first occurrence at or after `start`. -/
theorem findFrom_eq_some (text pat : Str) (start p : Nat) (hpat : pat ≠ [])
    (hocc : occursAt text pat p) (h1 : start ≤ p)
    (hmin : ∀ m, start ≤ m → m < p → ¬ occursAt text pat m) :
    findFrom text pat start = some p := by
  unfold findFrom
  have hbound := occursAt_bound text pat p hpat hocc
  exact findFromGo_finds text pat _ start p hocc h1 (by omega) hmin

/-- `findFrom` fails when there is no occurrence at or after `start`. -/
theorem findFrom_eq_none (text pat : Str) (start : Nat)
    (hno : ∀ m, start ≤ m → ¬ occursAt text pat m) :
    findFrom text pat start = none := by
  cases h : findFrom text pat start with
  | none => rfl
  | some p =>
    obtain ⟨h1, h2, _⟩ := findFrom_some_spec text pat start p h
    exact absurd h2 (hno p h1)

/-- Lower bound on a successful `findFrom` from early-range kills. -/
theorem findFrom_ge (text pat : Str) (start b p : Nat)
    (hkill : ∀ m, start ≤ m → m < b → ¬ occursAt text pat m)
    (h : findFrom text pat start = some p) : b ≤ p := by
  obtain ⟨h1, h2, _⟩ := findFrom_some_spec text pat start p h
  by_cases hb : b ≤ p
  · exact hb
  · exact absurd h2 (hkill p h1 (by omega))

/-! ## Extractor correctness: structured texts -/

/-- A usable label: non-empty, and its text contains neither a colon nor
a newline. -/
def goodKey (k : Str) : Prop := k ≠ [] ∧ ':' ∉ k ∧ '\n' ∉ k

/-- A value that does not collide with the extractor's scanning: it
contains neither a colon (so it cannot fake a label) nor a newline (so
it cannot fake a blank-line separator). -/
def cleanVal (v : Str) : Prop := ':' ∉ v ∧ '\n' ∉ v

/-- One labeled section: `label ++ ":" ++ value`. -/
def labeledPart (p : Str × Str) : Str := p.1 ++ [':'] ++ p.2

/-- Labeled sections in order, separated by blank lines, with no
trailing separator: the canonical well-formed oracle response. -/
def assembleText : List (Str × Str) → Str
  | [] => []
  | [p] => labeledPart p
  | p :: q :: rest => labeledPart p ++ nnSep ++ assembleText (q :: rest)

/-- The portion of the text from the extractor's cursor onward: empty
when no labeled sections remain, otherwise the pending separator
followed by the remaining sections. -/
def restText (sep : Str) (sub : List (Str × Str)) : Str :=
  match sub with
  | [] => []
  | _ => sep ++ assembleText sub

theorem assembleText_cons (p : Str × Str) (rest : List (Str × Str)) :
    assembleText (p :: rest) = labeledPart p ++ restText nnSep rest := by
  cases rest with
  | nil => simp [assembleText, restText]
  | cons q r => simp [assembleText, restText]

theorem char_at_of_drop (text B R : Str) (s j : Nat)
    (hdrop : text.drop s = B ++ R) (hj : j < B.length) :
    text.get? (s + j) = B.get? j := by
  calc text.get? (s + j) = (text.drop s).get? j := (List.get?_drop text s j).symm
  _ = B.get? j := by rw [hdrop, List.get?_append hj]

theorem drop_shift (text X Y : Str) (s : Nat) (hdrop : text.drop s = X ++ Y) :
    text.drop (s + X.length) = Y := by
  rw [← List.drop_drop, hdrop, List.drop_left]

theorem length_of_drop (text Y : Str) (s : Nat) (hdrop : text.drop s = Y)
    (hs : s ≤ text.length) : text.length = s + Y.length := by
  have h := congrArg List.length hdrop
  rw [List.length_drop] at h
  omega

theorem lt_length_of_drop_ne_nil (text Y : Str) (s : Nat)
    (hdrop : text.drop s = Y) (hY : Y ≠ []) : s < text.length := by
  by_contra hge
  rw [List.drop_eq_nil_of_le (by omega)] at hdrop
  exact hY hdrop.symm

/-- No pattern free of newlines can sit on a blank-line separator. -/
theorem kill_at_sep (text R pat : Str) (s m : Nat)
    (hdrop : text.drop s = nnSep ++ R) (hnl : '\n' ∉ pat) (hpat : pat ≠ [])
    (h1 : s ≤ m) (h2 : m < s + 2) : ¬ occursAt text pat m := by
  intro hocc
  have hlen : 0 < pat.length := List.length_pos.mpr hpat
  obtain ⟨ch, hch, hmem⟩ := occursAt_char text pat m m hocc (le_refl m) (by omega)
  have hn : text.get? m = some '\n' := by
    have hj : m - s < nnSep.length := by
      simp only [nnSep, List.length_cons, List.length_singleton]
      omega
    have h := char_at_of_drop text nnSep R s (m - s) hdrop hj
    rw [show s + (m - s) = m from by omega] at h
    rw [h]
    have : m - s = 0 ∨ m - s = 1 := by omega
    rcases this with h0 | h0 <;> rw [h0] <;> rfl
  rw [hn] at hch
  injection hch with hch
  rw [← hch] at hmem
  exact hnl hmem

/-- A pattern free of newlines that starts inside a block followed by a
newline is confined to the block. -/
theorem confine_in_block (text B R pat : Str) (s m : Nat)
    (hdrop : text.drop s = B ++ ('\n' :: R)) (hnl : '\n' ∉ pat)
    (h1 : s ≤ m) (h2 : m < s + B.length) (hocc : occursAt text pat m) :
    m + pat.length ≤ s + B.length := by
  by_contra hge
  obtain ⟨ch, hch, hmem⟩ :=
    occursAt_char text pat m (s + B.length) hocc (by omega) (by omega)
  have hn : text.get? (s + B.length) = some '\n' := by
    have h := drop_shift text B ('\n' :: R) s hdrop
    have h0 := List.get?_drop text (s + B.length) 0
    rw [h] at h0
    rw [Nat.add_zero] at h0
    rw [← h0]
    rfl
  rw [hn] at hch
  injection hch with hch
  rw [← hch] at hmem
  exact hnl hmem

/-- An occurrence confined to the block is an occurrence in the block. -/
theorem occursAt_local (text B R pat : Str) (s m : Nat)
    (hdrop : text.drop s = B ++ R) (h1 : s ≤ m)
    (h2 : m + pat.length ≤ s + B.length) (hocc : occursAt text pat m) :
    occursAt B pat (m - s) := by
  obtain ⟨j, rfl⟩ : ∃ j, m = s + j := ⟨m - s, by omega⟩
  rw [show s + j - s = j from by omega]
  have hdm : text.drop (s + j) = B.drop j ++ R := by
    rw [← List.drop_drop, hdrop, List.drop_append_of_le_length (by omega)]
  unfold occursAt at hocc ⊢
  rw [hdm] at hocc
  rw [List.take_append_of_le_length (by rw [List.length_drop]; omega)] at hocc
  exact hocc

theorem colon_unique (k v : Str) (hk : ':' ∉ k) (hv : ':' ∉ v) :
    ∀ i, (k ++ [':'] ++ v).get? i = some ':' → i = k.length := by
  intro i hi
  by_cases h1 : i < k.length
  · rw [List.append_assoc, List.get?_append h1] at hi
    exact absurd (List.get?_mem hi) hk
  · by_cases h2 : i = k.length
    · exact h2
    · exfalso
      rw [List.get?_append_right (by simp; omega)] at hi
      exact hv (List.get?_mem hi)

theorem patColon (kj : Str) : (kj ++ [':']).get? kj.length = some ':' := by
  rw [List.get?_append_right (le_refl _)]
  simp

theorem pattern_no_newline (kj : Str) (h : '\n' ∉ kj) : '\n' ∉ kj ++ [':'] := by
  intro hm
  rcases List.mem_append.mp hm with hm | hm
  · exact h hm
  · simp at hm

/-- `k1` would be read as a suffix of the label `k2`: the only way the
pattern `k1 ++ ":"` can occur inside the labeled section of `k2`. -/
def SuffixRel (k1 k2 : Str) : Prop :=
  k1.length ≤ k2.length ∧ (k2 ++ [':']).drop (k2.length - k1.length) = k1 ++ [':']

instance (k1 k2 : Str) : Decidable (SuffixRel k1 k2) := by
  unfold SuffixRel
  infer_instance

/-- Any occurrence of a label pattern inside a labeled section pins the
searched label as a suffix of the section's label. -/
theorem occurs_in_block_suffixRel (k v kj : Str) (hk : ':' ∉ k) (hv : ':' ∉ v)
    (j : Nat) (hocc : occursAt (k ++ [':'] ++ v) (kj ++ [':']) j) :
    SuffixRel kj k := by
  have hcol : (k ++ [':'] ++ v).get? (j + kj.length) = some ':' := by
    have h := occursAt_get? _ _ j hocc kj.length (by simp)
    rw [h, patColon]
  have hj : j + kj.length = k.length := colon_unique k v hk hv _ hcol
  refine ⟨by omega, ?_⟩
  have hloc : occursAt (k ++ [':']) (kj ++ [':']) j := by
    refine occursAt_local (k ++ [':'] ++ v) (k ++ [':']) v (kj ++ [':']) 0 j
      (by simp) (by omega) (by simp; omega) ?_
    simpa using hocc
  unfold occursAt at hloc
  rw [List.take_all_of_le (by rw [List.length_drop]; simp; omega)] at hloc
  rw [show k.length - kj.length = j from by omega]
  exact hloc

/-- A foreign label pattern (not a suffix of the section's label) never
occurs inside that labeled section. -/
theorem no_foreign_in_block (k v kj : Str) (hk : ':' ∉ k) (hv : ':' ∉ v)
    (hne : ¬ SuffixRel kj k) (j : Nat) :
    ¬ occursAt (labeledPart (k, v)) (kj ++ [':']) j :=
  fun hocc => hne (occurs_in_block_suffixRel k v kj hk hv j hocc)

theorem labeledPart_length (k v : Str) :
    (labeledPart (k, v)).length = k.length + 1 + v.length := by
  simp [labeledPart]
  omega

theorem labeledPart_ne_nil (k v : Str) : labeledPart (k, v) ≠ [] := by
  simp [labeledPart]

theorem newline_not_in_labeledPart (k v : Str) (hk : '\n' ∉ k) (hv : '\n' ∉ v) :
    '\n' ∉ labeledPart (k, v) := by
  intro hm
  rcases List.mem_append.mp hm with hm | hm
  · rcases List.mem_append.mp hm with hm | hm
    · exact hk hm
    · simp at hm
  · exact hv hm

/-- A label pattern absent from every remaining section never occurs at
or after the cursor. -/
theorem no_absent_key_occurrence (text kj : Str) (hkj : goodKey kj) :
    ∀ (sub : List (Str × Str)) (sep : Str) (cur : Nat),
      (∀ p ∈ sub, goodKey p.1 ∧ cleanVal p.2) →
      (∀ p ∈ sub, ¬ SuffixRel kj p.1) →
      (sep = [] ∨ sep = nnSep) →
      text.drop cur = restText sep sub →
      ∀ m, cur ≤ m → ¬ occursAt text (kj ++ [':']) m := by
  intro sub
  induction sub with
  | nil =>
    intro sep cur _ _ _ hdrop m hm
    exact not_occursAt_of_drop_nil text _ cur m (by simp) hdrop hm
  | cons p rest ih =>
    intro sep cur hgood hsuf hsep hdrop m hm hocc
    rw [show restText sep (p :: rest) = sep ++ (labeledPart p ++ restText nnSep rest)
      from by simp [restText, assembleText_cons]] at hdrop
    have hdrops : text.drop (cur + sep.length) = labeledPart p ++ restText nnSep rest :=
      drop_shift text sep _ cur hdrop
    by_cases hm1 : m < cur + sep.length
    · rcases hsep with hsep | hsep
      · rw [hsep] at hm1
        simp only [List.length_nil, Nat.add_zero] at hm1
        omega
      · rw [hsep] at hdrop hm1
        exact kill_at_sep text _ _ cur m (by rw [hdrop])
          (pattern_no_newline kj hkj.2.2) (by simp) hm hm1 hocc
    · by_cases hm2 : m < cur + sep.length + (labeledPart p).length
      · have hconf : m + (kj ++ [':']).length ≤ cur + sep.length + (labeledPart p).length := by
          cases hrest : rest with
          | nil =>
            rw [hrest] at hdrops
            rw [show restText nnSep ([] : List (Str × Str)) = [] from rfl,
              List.append_nil] at hdrops
            have hlen := length_of_drop text _ _ hdrops
              (le_of_lt (lt_length_of_drop_ne_nil text _ _ hdrops (labeledPart_ne_nil _ _)))
            have := occursAt_bound text _ m (by simp) hocc
            omega
          | cons q r =>
            rw [hrest] at hdrops
            rw [show restText nnSep (q :: r) = '\n' :: ('\n' :: assembleText (q :: r))
              from rfl] at hdrops
            exact confine_in_block text _ _ _ _ m hdrops
              (pattern_no_newline kj hkj.2.2) (by omega) hm2 hocc
        have hloc := occursAt_local text _ _ _ _ m hdrops (by omega) (by omega) hocc
        obtain ⟨k1, v1⟩ := p
        exact no_foreign_in_block k1 v1 kj (hgood (k1, v1) (by simp)).1.2.1
          ((hgood (k1, v1) (by simp)).2.1) (hsuf (k1, v1) (by simp)) _ hloc
      · have hdropb : text.drop (cur + sep.length + (labeledPart p).length) =
            restText nnSep rest := drop_shift text _ _ _ hdrops
        exact ih nnSep (cur + sep.length + (labeledPart p).length)
          (fun q hq => hgood q (by simp [hq])) (fun q hq => hsuf q (by simp [hq]))
          (Or.inr rfl) hdropb m (by omega) hocc

theorem minNextKeyPos_of_none (text : Str) (laterKeys : List Str) (fp : Nat) :
    ∀ acc, (∀ k ∈ laterKeys, findFrom text (k ++ [':']) fp = none) →
      minNextKeyPos text laterKeys fp acc = acc := by
  induction laterKeys with
  | nil => intro acc _; rfl
  | cons k rest ih =>
    intro acc h
    unfold minNextKeyPos
    rw [h k (by simp)]
    exact ih acc (fun k2 hk2 => h k2 (by simp [hk2]))

theorem minNextKeyPos_ge (text : Str) (laterKeys : List Str) (fp b : Nat) :
    ∀ acc, (∀ k ∈ laterKeys, ∀ p, findFrom text (k ++ [':']) fp = some p → b ≤ p) →
      b ≤ acc → b ≤ minNextKeyPos text laterKeys fp acc := by
  induction laterKeys with
  | nil => intro acc _ hacc; exact hacc
  | cons k rest ih =>
    intro acc h hacc
    unfold minNextKeyPos
    cases hf : findFrom text (k ++ [':']) fp with
    | none => exact ih acc (fun k2 hk2 => h k2 (by simp [hk2])) hacc
    | some p =>
      exact ih (min p acc) (fun k2 hk2 => h k2 (by simp [hk2]))
        (le_min (h k (by simp) p hf) hacc)

theorem extractFields_cons_none (text key : Str) (rest : List Str) (cur : Nat)
    (hf : findFrom text (key ++ [':']) cur = none) :
    extractFields text (key :: rest) cur =
      (key, naStr) :: extractFields text rest cur := by
  simp only [extractFields, hf]

theorem extractFields_cons_some (text key : Str) (rest : List Str)
    (cur start : Nat) (hf : findFrom text (key ++ [':']) cur = some start) :
    extractFields text (key :: rest) cur =
      (key, pyStrip (sliceList text (start + key.length + 1)
        (endPosCalc text rest start))) ::
        extractFields text rest (endPosCalc text rest start) := by
  simp only [extractFields, hf]

theorem endPosCalc_of_none (text : Str) (laterKeys : List Str) (start : Nat)
    (hnn : findFrom text nnSep start = none)
    (hnone : ∀ k ∈ laterKeys, findFrom text (k ++ [':']) (start + 1) = none) :
    endPosCalc text laterKeys start = text.length := by
  unfold endPosCalc
  rw [hnn, minNextKeyPos_of_none text laterKeys (start + 1) text.length hnone]
  simp

theorem endPosCalc_of_sep (text : Str) (laterKeys : List Str) (start e : Nat)
    (hnn : findFrom text nnSep start = some e) (helen : e ≤ text.length)
    (hge : ∀ k ∈ laterKeys, ∀ p,
      findFrom text (k ++ [':']) (start + 1) = some p → e ≤ p) :
    endPosCalc text laterKeys start = e := by
  unfold endPosCalc
  rw [hnn]
  have hd := minNextKeyPos_ge text laterKeys (start + 1) e text.length hge helen
  dsimp only
  split
  · exact min_eq_left hd
  · rfl

/-- The well-formedness the master theorem needs of the fixed label
list: usable labels, no duplicates, and no label readable as a suffix of
another. -/
def KeysOK (keys : List Str) : Prop :=
  (∀ k ∈ keys, goodKey k) ∧ keys.Nodup ∧
  (∀ k1 ∈ keys, ∀ k2 ∈ keys, k1 ≠ k2 → ¬ SuffixRel k1 k2)

theorem keysOK_tail (k : Str) (krest : List Str) (h : KeysOK (k :: krest)) :
    KeysOK krest :=
  ⟨fun k2 hk2 => h.1 k2 (List.mem_cons_of_mem k hk2),
   (List.nodup_cons.mp h.2.1).2,
   fun a ha b hb => h.2.2 a (List.mem_cons_of_mem k ha) b (List.mem_cons_of_mem k hb)⟩

/-- Master theorem for the extraction loop: on a canonical text built
from any (ordered) subset of the labels with clean values, the loop
returns, for each label in the key list, the trimmed value of its
section when present and the sentinel when absent. -/
theorem extractFields_assemble (text : Str) :
    ∀ (keys : List Str) (sub : List (Str × Str)) (sep : Str) (cur : Nat),
      KeysOK keys →
      List.Sublist (sub.map Prod.fst) keys →
      (∀ p ∈ sub, cleanVal p.2) →
      (sep = [] ∨ sep = nnSep) →
      text.drop cur = restText sep sub →
      extractFields text keys cur =
        keys.map (fun k =>
          (k, match sub.find? (fun p => p.1 == k) with
              | some p => pyStrip p.2
              | none => naStr)) := by
  intro keys
  induction keys with
  | nil => intro sub sep cur _ _ _ _ _; rfl
  | cons k krest ih =>
    intro sub sep cur hok hsub hclean hsep hdrop
    have hknotin : k ∉ krest := (List.nodup_cons.mp hok.2.1).1
    cases sub with
    | nil =>
      have hnone : findFrom text (k ++ [':']) cur = none :=
        findFrom_eq_none _ _ _
          (fun m hm => not_occursAt_of_drop_nil text _ cur m (by simp) hdrop hm)
      rw [extractFields_cons_none text k krest cur hnone, List.map_cons,
        ih [] sep cur (keysOK_tail k krest hok) (by simp) (by simp) hsep hdrop]
      rfl
    | cons p subRest =>
      obtain ⟨k1, v1⟩ := p
      have hdrop' : text.drop cur =
          sep ++ (labeledPart (k1, v1) ++ restText nnSep subRest) := by
        rw [hdrop]
        simp [restText, assembleText_cons]
      have hdrops : text.drop (cur + sep.length) =
          labeledPart (k1, v1) ++ restText nnSep subRest :=
        drop_shift text sep _ cur hdrop'
      have hk1keys : k1 ∈ k :: krest := hsub.subset (by simp)
      have hgk1 : goodKey k1 := hok.1 k1 hk1keys
      have hcv1 : cleanVal v1 := hclean (k1, v1) (by simp)
      have hnl_lp : '\n' ∉ labeledPart (k1, v1) :=
        newline_not_in_labeledPart k1 v1 hgk1.2.2 hcv1.2
      by_cases hk1 : k1 = k
      · subst hk1
        -- the head label is present: it is found at the section start
        have hfind1 : findFrom text (k1 ++ [':']) cur = some (cur + sep.length) := by
          refine findFrom_eq_some text _ cur _ (by simp) ?_ (by omega) ?_
          · exact occursAt_of_drop text _ (v1 ++ restText nnSep subRest) _
              (by rw [hdrops]; simp [labeledPart])
          · intro m hm hlt
            rcases hsep with h0 | h0
            · exfalso
              rw [h0] at hlt
              simp only [List.length_nil, Nat.add_zero] at hlt
              omega
            · rw [h0] at hdrop' hlt
              exact kill_at_sep text _ _ cur m (by rw [hdrop'])
                (pattern_no_newline k1 hgk1.2.2) (by simp) hm hlt
        -- a later label never occurs before the end of this section
        have hkill_inblock : ∀ kj ∈ krest, ∀ m, cur + sep.length + 1 ≤ m →
            m + (kj ++ [':']).length ≤ cur + sep.length + (labeledPart (k1, v1)).length →
            ¬ occursAt text (kj ++ [':']) m := by
          intro kj hkj m hm1 hm2 hocc
          have hloc := occursAt_local text _ _ _ (cur + sep.length) m hdrops
            (by omega) (by omega) hocc
          refine no_foreign_in_block k1 v1 kj hgk1.2.1 hcv1.1 ?_ _ hloc
          refine hok.2.2 kj (List.mem_cons_of_mem k1 hkj) k1 (by simp) ?_
          intro he
          rw [he] at hkj
          exact hknotin hkj
        -- no newline anywhere inside this section
        have hkill_nn : ∀ m, cur + sep.length ≤ m →
            m < cur + sep.length + (labeledPart (k1, v1)).length →
            text.get? m ≠ some '\n' := by
          intro m hm1 hm2 hch
          have h := char_at_of_drop text (labeledPart (k1, v1))
            (restText nnSep subRest) (cur + sep.length) (m - (cur + sep.length))
            hdrops (by omega)
          rw [show cur + sep.length + (m - (cur + sep.length)) = m from by omega] at h
          rw [hch] at h
          exact hnl_lp (List.get?_mem h.symm)
        cases subRest with
        | nil =>
          -- last section: the value runs to the end of the text
          have hdrops2 : text.drop (cur + sep.length) = labeledPart (k1, v1) := by
            rw [hdrops]
            simp [restText]
          have hlen : text.length =
              cur + sep.length + (labeledPart (k1, v1)).length :=
            length_of_drop text _ _ hdrops2
              (le_of_lt (lt_length_of_drop_ne_nil text _ _ hdrops2 (labeledPart_ne_nil _ _)))
          have hnn : findFrom text nnSep (cur + sep.length) = none := by
            refine findFrom_eq_none _ _ _ (fun m hm hocc => ?_)
            by_cases hmb : m < cur + sep.length + (labeledPart (k1, v1)).length
            · obtain ⟨ch, hch, hmem⟩ :=
                occursAt_char text nnSep m m hocc (le_refl m) (by simp [nnSep])
              have hnlch : ch = '\n' := by
                rcases List.mem_cons.mp hmem with h0 | h0
                · exact h0.symm ▸ rfl
                · simpa [nnSep] using h0
              exact hkill_nn m hm hmb (by rw [hch, hnlch])
            · exact not_occursAt_of_drop_nil text nnSep text.length m (by simp [nnSep])
                (List.drop_length text) (by omega) hocc
          have hlater : ∀ kj ∈ krest,
              findFrom text (kj ++ [':']) (cur + sep.length + 1) = none := by
            intro kj hkj
            refine findFrom_eq_none _ _ _ (fun m hm hocc => ?_)
            by_cases hmb : m < cur + sep.length + (labeledPart (k1, v1)).length
            · have hbd := occursAt_bound text _ m (by simp) hocc
              exact hkill_inblock kj hkj m hm (by omega) hocc
            · exact not_occursAt_of_drop_nil text _ text.length m (by simp)
                (List.drop_length text) (by omega) hocc
          have hend : endPosCalc text krest (cur + sep.length) = text.length :=
            endPosCalc_of_none text krest _ hnn hlater
          have hdropv : text.drop (cur + sep.length + (k1.length + 1)) = v1 := by
            have h2 := drop_shift text (k1 ++ [':']) v1 (cur + sep.length)
              (by rw [hdrops2]; simp [labeledPart])
            simpa using h2
          have hval : sliceList text (cur + sep.length + k1.length + 1) text.length = v1 := by
            unfold sliceList
            rw [show cur + sep.length + k1.length + 1 =
              cur + sep.length + (k1.length + 1) from by omega, hdropv]
            rw [show text.length - (cur + sep.length + (k1.length + 1)) = v1.length from by
              rw [hlen, labeledPart_length]; omega]
            exact List.take_length v1
          rw [extractFields_cons_some text k1 krest cur (cur + sep.length) hfind1,
            hend, hval, List.map_cons]
          rw [ih [] nnSep text.length (keysOK_tail k1 krest hok) (by simp) (by simp)
            (Or.inr rfl) (by rw [List.drop_length]; rfl)]
          congr 1
          · simp [List.find?]
          · refine List.map_congr_left (fun k2 hk2 => ?_)
            have : (k1 == k2) = false := by
              refine beq_eq_false_iff_ne.mpr ?_
              intro he
              rw [he] at hknotin
              exact hknotin hk2
            simp [List.find?, this]
        | cons p2 subR2 =>
          -- a further section follows: the value ends at the blank line
          have hdropb : text.drop
              (cur + sep.length + (labeledPart (k1, v1)).length) =
              nnSep ++ assembleText (p2 :: subR2) := by
            have h2 := drop_shift text (labeledPart (k1, v1))
              (restText nnSep (p2 :: subR2)) (cur + sep.length) hdrops
            rw [h2]
            rfl
          have hblockEnd_lt : cur + sep.length + (labeledPart (k1, v1)).length <
              text.length :=
            lt_length_of_drop_ne_nil text _ _ hdropb (by simp [nnSep])
          have hnn : findFrom text nnSep (cur + sep.length) =
              some (cur + sep.length + (labeledPart (k1, v1)).length) := by
            refine findFrom_eq_some text _ _ _ (by simp [nnSep]) ?_ (by omega) ?_
            · exact occursAt_of_drop text _ _ _ (by rw [hdropb])
            · intro m hm hlt hocc
              obtain ⟨ch, hch, hmem⟩ :=
                occursAt_char text nnSep m m hocc (le_refl m) (by simp [nnSep])
              have hnlch : ch = '\n' := by
                rcases List.mem_cons.mp hmem with h0 | h0
                · exact h0.symm ▸ rfl
                · simpa [nnSep] using h0
              exact hkill_nn m hm hlt (by rw [hch, hnlch])
          have hlater : ∀ kj ∈ krest, ∀ q,
              findFrom text (kj ++ [':']) (cur + sep.length + 1) = some q →
              cur + sep.length + (labeledPart (k1, v1)).length ≤ q := by
            intro kj hkj q hfq
            refine findFrom_ge text _ _ _ q ?_ hfq
            intro m hm1 hm2 hocc
            have hconf := confine_in_block text (labeledPart (k1, v1))
              ('\n' :: assembleText (p2 :: subR2)) (kj ++ [':'])
              (cur + sep.length) m (by rw [hdrops]; rfl)
              (pattern_no_newline kj (hok.1 kj (List.mem_cons_of_mem k1 hkj)).2.2)
              (by omega) hm2 hocc
            exact hkill_inblock kj hkj m hm1 hconf hocc
          have hend : endPosCalc text krest (cur + sep.length) =
              cur + sep.length + (labeledPart (k1, v1)).length :=
            endPosCalc_of_sep text krest _ _ hnn (by omega) hlater
          have hdropv : text.drop (cur + sep.length + (k1.length + 1)) =
              v1 ++ restText nnSep (p2 :: subR2) := by
            have h2 := drop_shift text (k1 ++ [':'])
              (v1 ++ restText nnSep (p2 :: subR2)) (cur + sep.length)
              (by rw [hdrops]; simp [labeledPart])
            simpa using h2
          have hval : sliceList text (cur + sep.length + k1.length + 1)
              (cur + sep.length + (labeledPart (k1, v1)).length) = v1 := by
            unfold sliceList
            rw [show cur + sep.length + k1.length + 1 =
              cur + sep.length + (k1.length + 1) from by omega, hdropv]
            rw [show cur + sep.length + (labeledPart (k1, v1)).length -
              (cur + sep.length + (k1.length + 1)) = v1.length from by
              rw [labeledPart_length]; omega]
            exact List.take_left v1 _
          rw [extractFields_cons_some text k1 krest cur (cur + sep.length) hfind1,
            hend, hval, List.map_cons]
          rw [ih (p2 :: subR2) nnSep
            (cur + sep.length + (labeledPart (k1, v1)).length)
            (keysOK_tail k1 krest hok)
            (by
              have h2 : List.Sublist (k1 :: (p2 :: subR2).map Prod.fst) (k1 :: krest) := by
                simpa using hsub
              exact List.cons_sublist_cons.mp h2)
            (fun q hq => hclean q (by simp [hq])) (Or.inr rfl)
            (by rw [hdropb]; rfl)]
          congr 1
          · simp [List.find?]
          · refine List.map_congr_left (fun k2 hk2 => ?_)
            have : (k1 == k2) = false := by
              refine beq_eq_false_iff_ne.mpr ?_
              intro he
              rw [he] at hknotin
              exact hknotin hk2
            simp [List.find?, this]
      · -- the head label is absent from the text
        have hsubtail : List.Sublist (((k1, v1) :: subRest).map Prod.fst) krest := by
          rcases List.sublist_cons_iff.mp hsub with h0 | ⟨r, hr, _⟩
          · exact h0
          · exfalso
            have : k1 = k := by
              have := congrArg (fun l => l.head?) hr
              simpa using this
            exact hk1 this
        have hknotsub : ∀ q ∈ (k1, v1) :: subRest, ¬ SuffixRel k q.1 := by
          intro q hq
          have hq1 : q.1 ∈ krest := hsubtail.subset (List.mem_map_of_mem Prod.fst hq)
          refine hok.2.2 k (by simp) q.1 (List.mem_cons_of_mem k hq1) ?_
          intro he
          rw [he] at hknotin
          exact hknotin hq1
        have hnone : findFrom text (k ++ [':']) cur = none := by
          refine findFrom_eq_none _ _ _ ?_
          exact no_absent_key_occurrence text k (hok.1 k (by simp))
            ((k1, v1) :: subRest) sep cur
            (fun q hq => ⟨hok.1 q.1 (List.mem_cons_of_mem k
              (hsubtail.subset (List.mem_map_of_mem Prod.fst hq))), hclean q hq⟩)
            hknotsub hsep hdrop
        rw [extractFields_cons_none text k krest cur hnone, List.map_cons]
        rw [ih ((k1, v1) :: subRest) sep cur (keysOK_tail k krest hok) hsubtail
          hclean hsep hdrop]
        congr 1
        have hfq : (((k1, v1) :: subRest).find? (fun p => p.1 == k)) = none := by
          refine List.find?_eq_none.mpr (fun q hq => ?_)
          intro hbeq
          have hqk : q.1 = k := by simpa using hbeq
          have hq1 : q.1 ∈ krest := hsubtail.subset (List.mem_map_of_mem Prod.fst hq)
          rw [hqk] at hq1
          exact hknotin hq1
        rw [hfq]

theorem lookupField_map (l : List Str) (g : Str → Str) (k : Str) (hk : k ∈ l) :
    lookupField (l.map (fun x => (x, g x))) k = g k := by
  induction l with
  | nil => simp at hk
  | cons a rest ih =>
    by_cases hak : a = k
    · subst hak
      unfold lookupField
      simp [List.find?]
    · have hne : ((a, g a).1 == k) = false := by simp [hak]
      have hk2 : k ∈ rest := by
        rcases List.mem_cons.mp hk with h | h
        · exact absurd h.symm hak
        · exact h
      unfold lookupField at ih ⊢
      simp only [List.map_cons, List.find?, hne]
      exact ih hk2

instance (k : Str) : Decidable (goodKey k) := by
  unfold goodKey
  infer_instance

theorem marketKeys_ok : KeysOK marketKeys := by
  refine ⟨?_, ?_, ?_⟩ <;> decide

/-- The value the extractor should report for label `k` given the
present sections `sub`. -/
def fieldOrNA (sub : List (Str × Str)) (k : Str) : Str :=
  match sub.find? (fun p => p.1 == k) with
  | some p => pyStrip p.2
  | none => naStr

/-- Extraction over a canonical text: each of the four report fields is
the trimmed value of its section when present and the sentinel when
absent, and the raw output is the untouched text. -/
theorem fetch_extract_assemble (sub : List (Str × Str))
    (hsub : List.Sublist (sub.map Prod.fst) marketKeys)
    (hclean : ∀ p ∈ sub, cleanVal p.2) :
    fetch_market_trend_extract (assembleText sub) =
      { marketDemand := fieldOrNA sub "Market Demand".toList,
        topSkills := fieldOrNA sub "Top Skills".toList,
        expectedSalaryRange := fieldOrNA sub "Expected Salary Range".toList,
        alignsWithMarketTrends := fieldOrNA sub "Aligns with Market Trends".toList,
        rawOutput := assembleText sub } := by
  have hmaster : extractFields (assembleText sub) marketKeys 0 =
      marketKeys.map (fun k => (k, fieldOrNA sub k)) := by
    have h := extractFields_assemble (assembleText sub) marketKeys sub [] 0
      marketKeys_ok hsub hclean (Or.inl rfl) ?_
    · exact h
    · rw [List.drop_zero]
      cases sub with
      | nil => rfl
      | cons p r => simp [restText]
  unfold fetch_market_trend_extract
  dsimp only
  rw [hmaster]
  rw [lookupField_map marketKeys (fun k => fieldOrNA sub k)
      "Market Demand".toList (by decide),
    lookupField_map marketKeys (fun k => fieldOrNA sub k)
      "Top Skills".toList (by decide),
    lookupField_map marketKeys (fun k => fieldOrNA sub k)
      "Expected Salary Range".toList (by decide),
    lookupField_map marketKeys (fun k => fieldOrNA sub k)
      "Aligns with Market Trends".toList (by decide)]

/-- C7: on any text made of the four labels in order with non-colliding
values, each separated from the next by a blank line, the extractor
recovers each label's exact value, trimmed, keeps the whole text as raw
output, and re-running the extraction on the same raw text yields the
same report. -/
theorem extractor_roundtrip (v1 v2 v3 v4 : Str)
    (h1 : cleanVal v1) (h2 : cleanVal v2) (h3 : cleanVal v3) (h4 : cleanVal v4) :
    fetch_market_trend_extract (assembleText
      [("Market Demand".toList, v1), ("Top Skills".toList, v2),
       ("Expected Salary Range".toList, v3),
       ("Aligns with Market Trends".toList, v4)]) =
      ⟨pyStrip v1, pyStrip v2, pyStrip v3, pyStrip v4,
        assembleText
          [("Market Demand".toList, v1), ("Top Skills".toList, v2),
           ("Expected Salary Range".toList, v3),
           ("Aligns with Market Trends".toList, v4)]⟩ ∧
    fetch_market_trend_extract ((fetch_market_trend_extract (assembleText
      [("Market Demand".toList, v1), ("Top Skills".toList, v2),
       ("Expected Salary Range".toList, v3),
       ("Aligns with Market Trends".toList, v4)])).rawOutput) =
      fetch_market_trend_extract (assembleText
        [("Market Demand".toList, v1), ("Top Skills".toList, v2),
         ("Expected Salary Range".toList, v3),
         ("Aligns with Market Trends".toList, v4)]) := by
  have hb := fetch_extract_assemble
    [("Market Demand".toList, v1), ("Top Skills".toList, v2),
     ("Expected Salary Range".toList, v3),
     ("Aligns with Market Trends".toList, v4)]
    (List.Sublist.refl marketKeys)
    (by
      intro p hp
      simp only [List.mem_cons, List.not_mem_nil, or_false] at hp
      rcases hp with rfl | rfl | rfl | rfl
      · exact h1
      · exact h2
      · exact h3
      · exact h4)
  have hfields : fetch_market_trend_extract (assembleText
      [("Market Demand".toList, v1), ("Top Skills".toList, v2),
       ("Expected Salary Range".toList, v3),
       ("Aligns with Market Trends".toList, v4)]) =
      ⟨pyStrip v1, pyStrip v2, pyStrip v3, pyStrip v4,
        assembleText
          [("Market Demand".toList, v1), ("Top Skills".toList, v2),
           ("Expected Salary Range".toList, v3),
           ("Aligns with Market Trends".toList, v4)]⟩ := by
    rw [hb]
    have e1 : fieldOrNA
        [("Market Demand".toList, v1), ("Top Skills".toList, v2),
         ("Expected Salary Range".toList, v3),
         ("Aligns with Market Trends".toList, v4)] "Market Demand".toList =
        pyStrip v1 := by
      simp [fieldOrNA, List.find?, show ("Market Demand".toList ==
        "Market Demand".toList) = true from by decide]
    have e2 : fieldOrNA
        [("Market Demand".toList, v1), ("Top Skills".toList, v2),
         ("Expected Salary Range".toList, v3),
         ("Aligns with Market Trends".toList, v4)] "Top Skills".toList =
        pyStrip v2 := by
      simp [fieldOrNA, List.find?,
        show ("Market Demand".toList == "Top Skills".toList) = false from by decide,
        show ("Top Skills".toList == "Top Skills".toList) = true from by decide]
    have e3 : fieldOrNA
        [("Market Demand".toList, v1), ("Top Skills".toList, v2),
         ("Expected Salary Range".toList, v3),
         ("Aligns with Market Trends".toList, v4)] "Expected Salary Range".toList =
        pyStrip v3 := by
      simp [fieldOrNA, List.find?,
        show ("Market Demand".toList == "Expected Salary Range".toList) = false
          from by decide,
        show ("Top Skills".toList == "Expected Salary Range".toList) = false
          from by decide,
        show ("Expected Salary Range".toList == "Expected Salary Range".toList) = true
          from by decide]
    have e4 : fieldOrNA
        [("Market Demand".toList, v1), ("Top Skills".toList, v2),
         ("Expected Salary Range".toList, v3),
         ("Aligns with Market Trends".toList, v4)]
        "Aligns with Market Trends".toList = pyStrip v4 := by
      simp [fieldOrNA, List.find?,
        show ("Market Demand".toList == "Aligns with Market Trends".toList) = false
          from by decide,
        show ("Top Skills".toList == "Aligns with Market Trends".toList) = false
          from by decide,
        show ("Expected Salary Range".toList == "Aligns with Market Trends".toList) =
          false from by decide,
        show ("Aligns with Market Trends".toList ==
          "Aligns with Market Trends".toList) = true from by decide]
    rw [e1, e2, e3, e4]
  refine ⟨hfields, ?_⟩
  rw [hfields]
  dsimp only
  exact hfields

instance (v : Str) : Decidable (cleanVal v) := by
  unfold cleanVal
  infer_instance

/-- Witness for `extractor_roundtrip`: the specification's concrete
scenario.  The assembled text is exactly the scenario string, and the
four extracted fields are the four trimmed segments. -/
theorem extractor_roundtrip_witness :
    cleanVal " high, growing fast".toList ∧
    cleanVal " Python, SQL".toList ∧
    cleanVal " 60k-120k".toList ∧
    cleanVal " yes, strong fit".toList ∧
    assembleText
      [("Market Demand".toList, " high, growing fast".toList),
       ("Top Skills".toList, " Python, SQL".toList),
       ("Expected Salary Range".toList, " 60k-120k".toList),
       ("Aligns with Market Trends".toList, " yes, strong fit".toList)] =
      ("Market Demand: high, growing fast" ++ "\n\n" ++ "Top Skills: Python, SQL"
        ++ "\n\n" ++ "Expected Salary Range: 60k-120k" ++ "\n\n"
        ++ "Aligns with Market Trends: yes, strong fit").toList ∧
    fetch_market_trend_extract (assembleText
      [("Market Demand".toList, " high, growing fast".toList),
       ("Top Skills".toList, " Python, SQL".toList),
       ("Expected Salary Range".toList, " 60k-120k".toList),
       ("Aligns with Market Trends".toList, " yes, strong fit".toList)]) =
      ⟨pyStrip " high, growing fast".toList, pyStrip " Python, SQL".toList,
        pyStrip " 60k-120k".toList, pyStrip " yes, strong fit".toList,
        assembleText
          [("Market Demand".toList, " high, growing fast".toList),
           ("Top Skills".toList, " Python, SQL".toList),
           ("Expected Salary Range".toList, " 60k-120k".toList),
           ("Aligns with Market Trends".toList, " yes, strong fit".toList)]⟩ ∧
    pyStrip " high, growing fast".toList = "high, growing fast".toList :=
  ⟨by decide, by decide, by decide, by decide, by decide,
    (extractor_roundtrip " high, growing fast".toList " Python, SQL".toList
      " 60k-120k".toList " yes, strong fit".toList
      (by decide) (by decide) (by decide) (by decide)).1,
    by decide⟩

/-- C8: on a canonical text from which exactly one of the four labels is
missing (the other three present, in order, with non-colliding values),
the extractor reports each present label's trimmed value, keeps the
whole text as raw output, and reports exactly the missing label's field
as the "N/A" sentinel. -/
theorem extractor_missing_label (sub : List (Str × Str)) (miss : Str)
    (hsub : List.Sublist (sub.map Prod.fst) marketKeys)
    (hclean : ∀ p ∈ sub, cleanVal p.2)
    (hmiss : miss ∈ marketKeys) (hnot : miss ∉ sub.map Prod.fst)
    (hlen : sub.length = 3) :
    fetch_market_trend_extract (assembleText sub) =
      { marketDemand := fieldOrNA sub "Market Demand".toList,
        topSkills := fieldOrNA sub "Top Skills".toList,
        expectedSalaryRange := fieldOrNA sub "Expected Salary Range".toList,
        alignsWithMarketTrends := fieldOrNA sub "Aligns with Market Trends".toList,
        rawOutput := assembleText sub } ∧
    fieldOrNA sub miss = naStr := by
  refine ⟨fetch_extract_assemble sub hsub hclean, ?_⟩
  unfold fieldOrNA
  rw [List.find?_eq_none.mpr ?_]
  intro p hp hbeq
  have hpm : p.1 = miss := by simpa using hbeq
  rw [← hpm] at hnot
  exact hnot (List.mem_map_of_mem Prod.fst hp)

/-- Witness for `extractor_missing_label`: the "Top Skills" label is
missing; its field is the sentinel and the other three extract. -/
theorem extractor_missing_label_witness :
    fetch_market_trend_extract (assembleText
      [("Market Demand".toList, " high".toList),
       ("Expected Salary Range".toList, " 60k".toList),
       ("Aligns with Market Trends".toList, " yes".toList)]) =
      { marketDemand := fieldOrNA
          [("Market Demand".toList, " high".toList),
           ("Expected Salary Range".toList, " 60k".toList),
           ("Aligns with Market Trends".toList, " yes".toList)]
          "Market Demand".toList,
        topSkills := fieldOrNA
          [("Market Demand".toList, " high".toList),
           ("Expected Salary Range".toList, " 60k".toList),
           ("Aligns with Market Trends".toList, " yes".toList)]
          "Top Skills".toList,
        expectedSalaryRange := fieldOrNA
          [("Market Demand".toList, " high".toList),
           ("Expected Salary Range".toList, " 60k".toList),
           ("Aligns with Market Trends".toList, " yes".toList)]
          "Expected Salary Range".toList,
        alignsWithMarketTrends := fieldOrNA
          [("Market Demand".toList, " high".toList),
           ("Expected Salary Range".toList, " 60k".toList),
           ("Aligns with Market Trends".toList, " yes".toList)]
          "Aligns with Market Trends".toList,
        rawOutput := assembleText
          [("Market Demand".toList, " high".toList),
           ("Expected Salary Range".toList, " 60k".toList),
           ("Aligns with Market Trends".toList, " yes".toList)] } ∧
    fieldOrNA
      [("Market Demand".toList, " high".toList),
       ("Expected Salary Range".toList, " 60k".toList),
       ("Aligns with Market Trends".toList, " yes".toList)]
      "Top Skills".toList = naStr :=
  extractor_missing_label
    [("Market Demand".toList, " high".toList),
     ("Expected Salary Range".toList, " 60k".toList),
     ("Aligns with Market Trends".toList, " yes".toList)]
    "Top Skills".toList (by decide) (by decide) (by decide) (by decide) (by decide)
